import Mathlib

/-!
# LeafWiki file-history tracker: a shallow embedding

This file embeds the file-history component of the LeafWiki repository
(`internal/search/history.go`) in Lean 4 and proves properties of it.

Modelling conventions:

* SQLite rows of the `file_history` table become `FileHistoryEntry`
  values; the append-only log is a `List FileHistoryEntry` whose `id`
  fields model the autoincrement primary key.  The invariant that ids
  are pairwise distinct (`WFLog`) models the primary-key property.
* `recordedAt` timestamps are abstracted to `Nat` (store clock ticks);
  the textual timestamp format and its parsing are modelled separately
  for `parseSQLiteTimestamp`.
* Go maps (`latest`, `currentFiles`, `moveCandidates`, `missing`) are
  modelled as association lists.  Go's map iteration order is
  unspecified, so functions that iterate a map take the association
  list *in an explicit order* and theorems quantify over all orders
  (permutations of the canonical list) where the order can matter.
* Database errors are outside the model (the store is pure); the
  filesystem walk of `scanMarkdownFiles` is modelled by a `RootDir`
  value describing what `filepath.WalkDir` would yield.
-/

namespace LeafWiki

/-- Go `FileHistoryStatus` string constants. -/
inductive FileHistoryStatus where
  | created
  | modified
  | deleted
  | moved
deriving DecidableEq

/-- Go `FileHistorySnapshot`: one row of the latest-state index
(columns `path, hash, content, status, previous_path`). -/
structure FileHistorySnapshot where
  path : String
  hash : String
  content : String
  status : FileHistoryStatus
  previousPath : Option String
deriving DecidableEq

/-- Go `FileHistoryEntry`: one full row of the `file_history` table.
`recordedAt` is an abstract store-clock value. -/
structure FileHistoryEntry where
  id : Nat
  path : String
  hash : String
  content : String
  status : FileHistoryStatus
  previousPath : Option String
  recordedAt : Nat
deriving DecidableEq

/-- Go `fileRecord`: the hash and content of one scanned file. -/
structure FileRecord where
  hash : String
  content : String
deriving DecidableEq

/-- A history row as handed to `insertHistoryEntry` (`id` and
`recorded_at` are assigned by the store on insert). -/
structure PendingEntry where
  path : String
  hash : String
  content : String
  status : FileHistoryStatus
  previousPath : Option String
deriving DecidableEq

/-- Association-list lookup with propositional equality on keys;
models Go map indexing `m[k]`. -/
def alookup {β : Type} : List (String × β) → String → Option β
  | [], _ => none
  | (k, v) :: rest, key => if k = key then some v else alookup rest key

/-- Go `filepath.Base` restricted to slash paths: empty string gives
`"."`, a string of slashes gives `"/"`, otherwise trailing slashes are
dropped and the last slash-separated element is returned. -/
def baseName (p : String) : String :=
  if p = "" then "." else
    let cs := p.data.reverse.dropWhile (fun c => c = '/')
    if cs = [] then "/" else String.mk ((cs.takeWhile (fun c => c ≠ '/')).reverse)

/-- Backwards scan of `filepath.Ext`: walking the characters of the
path from the end, stop at a path separator with no extension, or, at
the first dot found, return the dot followed by the accumulated
characters.  `acc` holds the characters already passed, in original
order. -/
def extScan : List Char → List Char → String
  | _, [] => ""
  | acc, c :: rest =>
    if c = '/' then ""
    else if c = '.' then String.mk ('.' :: acc)
    else extScan (c :: acc) rest

/-- Go `filepath.Ext` on slash paths: the suffix of the last element
beginning at its final dot, or `""`. -/
def pathExt (p : String) : String :=
  extScan [] p.data.reverse

/-- Go `movementKey`: content hash plus base name of the path. -/
def movementKey (hash : String) (relPath : String) : String :=
  hash ++ "|" ++ baseName relPath

/-- The `aliasPaths` set built at the start of `CaptureFileHistory`:
all non-null `previous_path` values among the latest-state rows. -/
def aliasPaths (latestL : List (String × FileHistorySnapshot)) : List String :=
  latestL.filterMap (fun ps => ps.2.previousPath)

/-- The first loop of `CaptureFileHistory`: paths of the latest-state
index that are not alias paths and are absent from the current
snapshot, in index-iteration order (this is the `missing` map together
with the order in which `moveCandidates` lists are filled). -/
def deletionScan (latestL : List (String × FileHistorySnapshot))
    (current : List (String × FileRecord)) : List (String × FileHistorySnapshot) :=
  latestL.filter (fun ps =>
    decide (¬ ps.1 ∈ aliasPaths latestL ∧ alookup current ps.1 = none))

/-- The per-key `moveCandidates` lists: non-deleted missing snapshots
with the given movement key, in the order they were appended. -/
def initialCandidates (missing : List (String × FileHistorySnapshot)) (k : String) :
    List FileHistorySnapshot :=
  (missing.filter (fun ps =>
    decide (ps.2.status ≠ .deleted ∧ movementKey ps.2.hash ps.1 = k))).map (fun ps => ps.2)

/-- The `for relPath, file := range currentFiles` loop of
`CaptureFileHistory`.  State: the remaining iteration order of the
current snapshot, the move-candidate lists per key, and the `missing`
map.  Returns the final `missing` map and the rows inserted by this
loop, in insertion order. -/
def reconcileLoop (latestL : List (String × FileHistorySnapshot)) :
    List (String × FileRecord) → (String → List FileHistorySnapshot) →
    List (String × FileHistorySnapshot) →
    List (String × FileHistorySnapshot) × List PendingEntry
  | [], _, missing => (missing, [])
  | (relPath, file) :: rest, mc, missing =>
    match alookup latestL relPath with
    | some snap =>
      if snap.status = .deleted then
        let r := reconcileLoop latestL rest mc missing
        (r.1, ⟨relPath, file.hash, file.content, .created, none⟩ :: r.2)
      else if snap.hash ≠ file.hash then
        let r := reconcileLoop latestL rest mc missing
        (r.1, ⟨relPath, file.hash, file.content, .modified, none⟩ :: r.2)
      else
        reconcileLoop latestL rest mc missing
    | none =>
      let key := movementKey file.hash relPath
      match mc key with
      | prev :: others =>
        let mc' := fun k => if k = key then others else mc k
        let missing' := missing.filter (fun ps => decide (ps.1 ≠ prev.path))
        let r := reconcileLoop latestL rest mc' missing'
        (r.1, ⟨relPath, file.hash, file.content, .moved, some prev.path⟩ :: r.2)
      | [] =>
        let r := reconcileLoop latestL rest mc missing
        (r.1, ⟨relPath, file.hash, file.content, .created, none⟩ :: r.2)

/-- The final loop of `CaptureFileHistory`: every path still missing
whose latest status is not already `deleted` gets a `deleted` row. -/
def deletedRows (missing : List (String × FileHistorySnapshot)) : List PendingEntry :=
  missing.filterMap (fun ps =>
    if ps.2.status = .deleted then none
    else some ⟨ps.1, ps.2.hash, ps.2.content, .deleted, none⟩)

/-- One reconciliation pass of `CaptureFileHistory`, given the
latest-state index and the current snapshot as association lists in
map-iteration order.  Returns the rows inserted, in insertion order. -/
def capturePass (latestL : List (String × FileHistorySnapshot))
    (current : List (String × FileRecord)) : List PendingEntry :=
  let missing0 := deletionScan latestL current
  let r := reconcileLoop latestL current (initialCandidates missing0) missing0
  r.2 ++ deletedRows r.1

/-- The next autoincrement id the store would assign: one past the
largest id in the log. -/
def nextId (log : List FileHistoryEntry) : Nat :=
  (log.map (fun e => e.id)).foldr max 0 + 1

/-- The store assigning consecutive ids (starting at `idStart`) and the
pass timestamp `ts` to the rows inserted by one pass, in insertion
order. -/
def assignFrom (idStart : Nat) (ts : Nat) : List PendingEntry → List FileHistoryEntry
  | [] => []
  | p :: rest =>
    ⟨idStart, p.path, p.hash, p.content, p.status, p.previousPath, ts⟩ ::
      assignFrom (idStart + 1) ts rest

/-- The columns of a log row that `latestFileSnapshots` selects. -/
def snapOf (e : FileHistoryEntry) : FileHistorySnapshot :=
  ⟨e.path, e.hash, e.content, e.status, e.previousPath⟩

/-- The `latest` CTE of `latestFileSnapshots`:
`SELECT MAX(id) AS id, path FROM file_history GROUP BY path`, read off
for one path. -/
def maxIdForPath : List FileHistoryEntry → String → Option Nat
  | [], _ => none
  | e :: rest, p =>
    if e.path = p then
      some (match maxIdForPath rest p with
        | none => e.id
        | some m => max e.id m)
    else maxIdForPath rest p

/-- The join `fh JOIN latest l ON fh.id = l.id` of
`latestFileSnapshots`: the log rows whose id is the maximal id of some
path group. -/
def latestRows (log : List FileHistoryEntry) : List FileHistoryEntry :=
  log.filter (fun e => log.any (fun g => decide (maxIdForPath log g.path = some e.id)))

/-- Go `latestFileSnapshots`: the map from each path ever seen to the
selected columns of its row of maximal id, as an association list in
row order. -/
def latestFileSnapshots (log : List FileHistoryEntry) : List (String × FileHistorySnapshot) :=
  (latestRows log).map (fun e => (e.path, snapOf e))

/-- The `file_history` table has a unique autoincrement primary key:
ids in the log are pairwise distinct. -/
def WFLog (log : List FileHistoryEntry) : Prop :=
  (log.map (fun e => e.id)).Nodup

instance (log : List FileHistoryEntry) : Decidable (WFLog log) := by
  unfold WFLog
  infer_instance

/-- `latestL` is the latest-state index of `log` presented in some Go
map iteration order: a permutation of the canonical association
list. -/
def IsLatestIndexOf (log : List FileHistoryEntry)
    (latestL : List (String × FileHistorySnapshot)) : Prop :=
  latestL.Perm (latestFileSnapshots log)

/-- One run of `CaptureFileHistory` at the store level: the rows
produced by the pass are appended to the log with consecutive ids and
the pass timestamp `ts`. -/
def captureStep (log : List FileHistoryEntry)
    (latestL : List (String × FileHistorySnapshot))
    (current : List (String × FileRecord)) (ts : Nat) : List FileHistoryEntry :=
  log ++ assignFrom (nextId log) ts (capturePass latestL current)

/-! ## The content scanner (`scanMarkdownFiles`) -/

/-- One callback invocation of `filepath.WalkDir`: a directory entry, a
file entry (with `none` content for a read error), or a traversal
error (`d` unusable). -/
inductive WalkItem where
  | dirItem (relPath : String)
  | fileItem (relPath : String) (content : Option String)
  | errItem
deriving DecidableEq

/-- The state of the tracked root directory: missing (stat fails, the
walk reports a single traversal error which the callback swallows), or
present with the items the walk yields. -/
inductive RootDir where
  | missing
  | present (items : List WalkItem)

/-- What `filepath.WalkDir` yields on a root. -/
def walkItems : RootDir → List WalkItem
  | .missing => [.errItem]
  | .present items => items

/-- Go `hashBytes`/`HashString` abstracted: an injective content
digest.  The cryptographic hash is modelled by an injection tag; the
spec treats collisions as impossible. -/
def hashString (content : String) : String :=
  "sha256:" ++ content

/-- Whether a relative path names a Markdown file
(`filepath.Ext(d.Name()) == ".md"`). -/
def isMarkdownPath (relPath : String) : Bool :=
  decide (pathExt relPath = ".md")

/-- The body of the `WalkDir` callback in `scanMarkdownFiles`:
traversal errors, directories, non-Markdown files and unreadable files
are skipped; other files are recorded with hash and content. -/
def scanStep (acc : List (String × FileRecord)) : WalkItem → List (String × FileRecord)
  | .errItem => acc
  | .dirItem _ => acc
  | .fileItem relPath content =>
    if isMarkdownPath relPath then
      match content with
      | none => acc
      | some c => acc ++ [(relPath, ⟨hashString c, c⟩)]
    else acc

/-- Go `scanMarkdownFiles`: walk the root and collect Markdown files.
The callback always returns nil, so the walk never fails; the
`os.IsNotExist` fallback makes a missing root an empty result. -/
def scanMarkdownFiles (root : RootDir) : Except String (List (String × FileRecord)) :=
  .ok ((walkItems root).foldl scanStep [])

/-- Go `CaptureFileHistory` end to end: scan the root, then run the
reconciliation pass against the latest-state index and append the new
rows.  Store errors are outside the pure model. -/
def captureFileHistory (root : RootDir) (log : List FileHistoryEntry)
    (latestL : List (String × FileHistorySnapshot)) (ts : Nat) :
    Except String (List FileHistoryEntry) :=
  match scanMarkdownFiles root with
  | .error e => .error e
  | .ok current => .ok (captureStep log latestL current ts)

/-! ## The history resolver (`GetHistoryForPath`) -/

/-- The ASCII whitespace characters trimmed by `strings.TrimSpace`
(the Unicode-only space code points do not occur in wiki paths and are
not modelled). -/
def isSpaceChar (c : Char) : Bool :=
  decide (c = ' ' ∨ c = '\t' ∨ c = '\n' ∨ c = '\r' ∨ c = Char.ofNat 11 ∨ c = Char.ofNat 12)

/-- `strings.TrimSpace` on the character list: drop whitespace from
both ends. -/
def trimSpaceList (l : List Char) : List Char :=
  ((l.dropWhile isSpaceChar).reverse.dropWhile isSpaceChar).reverse

/-- Go `normalizeHistoryPath`: trim surrounding whitespace, then strip
leading slashes (`filepath.ToSlash` is the identity on slash paths). -/
def normalizeHistoryPath (p : String) : String :=
  String.mk ((trimSpaceList p.data).dropWhile (fun c => c = '/'))

/-- `filepath.Join(normalized, "index.md")` for slash paths without
dot segments: drop trailing slashes and append `/index.md`. -/
def joinIndexMd (p : String) : String :=
  String.mk ((p.data.reverse.dropWhile (fun c => c = '/')).reverse) ++ "/index.md"

/-- The final deduplication loop of `seedHistoryPaths`: keep the first
occurrence of each non-empty candidate. -/
def uniqueNonEmpty (seen : List String) : List String → List String
  | [] => []
  | c :: rest =>
    if c = "" ∨ c ∈ seen then uniqueNonEmpty seen rest
    else c :: uniqueNonEmpty (c :: seen) rest

/-- Go `seedHistoryPaths`: the normalized query path, plus — for an
extension-less query — the `path.md` and `path/index.md` variants,
deduplicated. -/
def seedHistoryPaths (p : String) : List String :=
  let normalized := normalizeHistoryPath p
  if normalized = "" then []
  else
    uniqueNonEmpty []
      (if pathExt normalized = "" then
        [normalized, normalized ++ ".md", joinIndexMd normalized]
      else [normalized])

/-- The result order of `GetHistoryForPath`: recorded time descending,
ties broken by id descending. -/
def histLe (a b : FileHistoryEntry) : Prop :=
  b.recordedAt < a.recordedAt ∨ (b.recordedAt = a.recordedAt ∧ b.id ≤ a.id)

instance : DecidableRel histLe := fun a b => by
  unfold histLe; infer_instance

instance : IsTotal FileHistoryEntry histLe :=
  ⟨fun a b => by
    unfold histLe
    rcases Nat.lt_trichotomy a.recordedAt b.recordedAt with h | h | h
    · exact Or.inr (Or.inl h)
    · rcases Nat.le_total a.id b.id with hid | hid
      · exact Or.inr (Or.inr ⟨h, hid⟩)
      · exact Or.inl (Or.inr ⟨h.symm, hid⟩)
    · exact Or.inl (Or.inl h)⟩

instance : IsTrans FileHistoryEntry histLe :=
  ⟨fun a b c hab hbc => by
    unfold histLe at *
    rcases hab with h1 | ⟨h1, h1'⟩ <;> rcases hbc with h2 | ⟨h2, h2'⟩
    · exact Or.inl (h2.trans h1)
    · exact Or.inl (h2 ▸ h1)
    · exact Or.inl (h1 ▸ h2)
    · exact Or.inr ⟨h2.trans h1, h2'.trans h1'⟩⟩

/-- The per-path query of `GetHistoryForPath`:
`WHERE path = ? OR previous_path = ? ORDER BY recorded_at DESC, id
DESC`. -/
def queryRows (log : List FileHistoryEntry) (current : String) : List FileHistoryEntry :=
  List.insertionSort histLe
    (log.filter (fun e => decide (e.path = current ∨ e.previousPath = some current)))

/-- The inner row loop of `GetHistoryForPath`: enqueue each row's
`previous_path` unless already visited, then keep the row unless its
id was already seen. -/
def processRows (visited : List String) :
    List FileHistoryEntry → List String → List Nat →
    List String × List Nat × List FileHistoryEntry
  | [], queue, seen => (queue, seen, [])
  | r :: rest, queue, seen =>
    let queue1 :=
      match r.previousPath with
      | some pp => if pp ∈ visited then queue else queue ++ [pp]
      | none => queue
    if r.id ∈ seen then processRows visited rest queue1 seen
    else
      let t := processRows visited rest queue1 (r.id :: seen)
      (t.1, t.2.1, r :: t.2.2)

/-- The breadth-first queue loop of `GetHistoryForPath`, with fuel
bounding the number of queue pops (the Go loop terminates because
every productive pop marks a new path visited). -/
def collectRows (log : List FileHistoryEntry) :
    Nat → List String → List String → List Nat → List FileHistoryEntry
  | 0, _, _, _ => []
  | _ + 1, [], _, _ => []
  | fuel + 1, current :: queue, visited, seen =>
    if current ∈ visited then collectRows log fuel queue visited seen
    else
      let visited' := current :: visited
      let t := processRows visited' (queryRows log current) queue seen
      t.2.2 ++ collectRows log fuel t.1 visited' t.2.1

/-- Fuel that can never run out: the queue starts with at most three
seeds and each of the at most `2 * |log| + 3` productive pops enqueues
at most `|log|` paths. -/
def historyFuel (log : List FileHistoryEntry) : Nat :=
  (2 * log.length + 4) * (log.length + 1) + 4

/-- Go `GetHistoryForPath`: walk the rename chain from the seeded
paths, collect rows deduplicated by id, and sort them by recorded time
descending with ties by id descending. -/
def getHistoryForPath (log : List FileHistoryEntry) (p : String) : List FileHistoryEntry :=
  List.insertionSort histLe
    (collectRows log (historyFuel log) (seedHistoryPaths p) [] [])

/-! ## Timestamp parsing (`parseSQLiteTimestamp`)

`time.Time` values are modelled by their broken-down components
(`DateTime`); Go's `time.Parse` against the three candidate layouts is
modelled by character-level parsers.  Following Go, a fractional
second is accepted after the seconds field even when the layout does
not show one, and component ranges (month, day-of-month including leap
years, hour, minute, second) are validated. -/

structure DateTime where
  year : Nat
  month : Nat
  day : Nat
  hour : Nat
  minute : Nat
  second : Nat
  nanos : Nat
  offNeg : Bool
  offH : Nat
  offM : Nat
deriving DecidableEq

def isLeapYear (y : Nat) : Bool :=
  decide (y % 4 = 0 ∧ (y % 100 ≠ 0 ∨ y % 400 = 0))

def daysInMonth (y m : Nat) : Nat :=
  if m = 2 then (if isLeapYear y then 29 else 28)
  else if m = 4 ∨ m = 6 ∨ m = 9 ∨ m = 11 then 30
  else 31

/-- The component values representable in the stored text form: what
`time.Format` can emit and `time.Parse` accepts back. A zero zone
offset is rendered `Z`, so its sign is normalised. -/
def WFDateTime (dt : DateTime) : Prop :=
  dt.year ≤ 9999 ∧ 1 ≤ dt.month ∧ dt.month ≤ 12 ∧
  1 ≤ dt.day ∧ dt.day ≤ daysInMonth dt.year dt.month ∧
  dt.hour ≤ 23 ∧ dt.minute ≤ 59 ∧ dt.second ≤ 59 ∧
  dt.nanos < 1000000000 ∧ dt.offH ≤ 23 ∧ dt.offM ≤ 59 ∧
  ((dt.offH = 0 ∧ dt.offM = 0) → dt.offNeg = false)

instance (dt : DateTime) : Decidable (WFDateTime dt) := by
  unfold WFDateTime; infer_instance

def digitChar (d : Nat) : Char := Char.ofNat (48 + d)

/-- Zero-padded fixed-width decimal rendering, most significant digit
first. -/
def renderPad : Nat → Nat → List Char
  | 0, _ => []
  | w + 1, n => digitChar (n / 10 ^ w % 10) :: renderPad w (n % 10 ^ w)

def renderOffset (dt : DateTime) : List Char :=
  if dt.offH = 0 ∧ dt.offM = 0 then ['Z']
  else (if dt.offNeg then '-' else '+') :: (renderPad 2 dt.offH ++ [':'] ++ renderPad 2 dt.offM)

def renderDatePart (dt : DateTime) : List Char :=
  renderPad 4 dt.year ++ ['-'] ++ renderPad 2 dt.month ++ ['-'] ++ renderPad 2 dt.day

def renderTimePart (dt : DateTime) : List Char :=
  renderPad 2 dt.hour ++ [':'] ++ renderPad 2 dt.minute ++ [':'] ++ renderPad 2 dt.second

/-- The full-precision fractional-second field (omitted when zero). -/
def renderFrac (nanos : Nat) : List Char :=
  if nanos = 0 then [] else '.' :: renderPad 9 nanos

/-- A timestamp written in the `time.RFC3339Nano` layout
`2006-01-02T15:04:05.999999999Z07:00`. -/
def renderRFC3339Nano (dt : DateTime) : String :=
  String.mk (renderDatePart dt ++ ['T'] ++ renderTimePart dt ++ renderFrac dt.nanos ++ renderOffset dt)

/-- A timestamp written in the `2006-01-02 15:04:05Z07:00` layout
(no fractional second field). -/
def renderSpaceOffset (dt : DateTime) : String :=
  String.mk (renderDatePart dt ++ [' '] ++ renderTimePart dt ++ renderOffset dt)

/-- A timestamp written in the `2006-01-02 15:04:05` layout. -/
def renderSpacePlain (dt : DateTime) : String :=
  String.mk (renderDatePart dt ++ [' '] ++ renderTimePart dt)

def readDigit (c : Char) : Option Nat :=
  if '0' ≤ c ∧ c ≤ '9' then some (c.toNat - 48) else none

/-- Read exactly `w` decimal digits into an accumulator. -/
def readFixedAux : Nat → Nat → List Char → Option (Nat × List Char)
  | 0, acc, l => some (acc, l)
  | _ + 1, _, [] => none
  | w + 1, acc, c :: rest =>
    match readDigit c with
    | none => none
    | some d => readFixedAux w (acc * 10 + d) rest

def readFixed (w : Nat) (l : List Char) : Option (Nat × List Char) :=
  readFixedAux w 0 l

def expectChar (c : Char) : List Char → Option (List Char)
  | [] => none
  | x :: rest => if x = c then some rest else none

/-- Split off the maximal leading run of decimal digits. -/
def takeDigits : List Char → List Nat × List Char
  | [] => ([], [])
  | c :: rest =>
    match readDigit c with
    | some d => let t := takeDigits rest; (d :: t.1, t.2)
    | none => ([], c :: rest)

def digitsVal (ds : List Nat) : Nat := ds.foldl (fun a d => a * 10 + d) 0

/-- An optional fractional-second field after the seconds: a dot
followed by one to nine digits, scaled to nanoseconds. -/
def readFrac : List Char → Option (Nat × List Char)
  | [] => some (0, [])
  | c :: rest =>
    if c = '.' then
      let t := takeDigits rest
      if t.1.length = 0 ∨ 9 < t.1.length then none
      else some (digitsVal t.1 * 10 ^ (9 - t.1.length), t.2)
    else some (0, c :: rest)

/-- The zone-offset field of layout element `Z07:00`: `Z` or a signed
`hh:mm` pair. -/
def readOffset : List Char → Option ((Bool × Nat × Nat) × List Char)
  | [] => none
  | c :: rest =>
    if c = 'Z' then some ((false, 0, 0), rest)
    else if c = '+' then
      (readFixed 2 rest).bind fun ph =>
        (expectChar ':' ph.2).bind fun r1 =>
          (readFixed 2 r1).bind fun pm =>
            if ph.1 ≤ 23 ∧ pm.1 ≤ 59 then some ((false, ph.1, pm.1), pm.2) else none
    else if c = '-' then
      (readFixed 2 rest).bind fun ph =>
        (expectChar ':' ph.2).bind fun r1 =>
          (readFixed 2 r1).bind fun pm =>
            if ph.1 ≤ 23 ∧ pm.1 ≤ 59 then some ((true, ph.1, pm.1), pm.2) else none
    else none

/-- The common date-time core `2006-01-02<sep>15:04:05` with optional
fractional second, including Go's component range validation. -/
def parseCore (sep : Char) (l : List Char) : Option (DateTime × List Char) :=
  (readFixed 4 l).bind fun py =>
    (expectChar '-' py.2).bind fun r1 =>
      (readFixed 2 r1).bind fun pmo =>
        (expectChar '-' pmo.2).bind fun r2 =>
          (readFixed 2 r2).bind fun pd =>
            (expectChar sep pd.2).bind fun r3 =>
              (readFixed 2 r3).bind fun ph =>
                (expectChar ':' ph.2).bind fun r4 =>
                  (readFixed 2 r4).bind fun pmi =>
                    (expectChar ':' pmi.2).bind fun r5 =>
                      (readFixed 2 r5).bind fun psec =>
                        (readFrac psec.2).bind fun pns =>
                          if 1 ≤ pmo.1 ∧ pmo.1 ≤ 12 ∧ 1 ≤ pd.1 ∧
                              pd.1 ≤ daysInMonth py.1 pmo.1 ∧ ph.1 ≤ 23 ∧
                              pmi.1 ≤ 59 ∧ psec.1 ≤ 59 then
                            some (⟨py.1, pmo.1, pd.1, ph.1, pmi.1, psec.1, pns.1,
                              false, 0, 0⟩, pns.2)
                          else none

/-- `time.Parse` against `time.RFC3339Nano`. -/
def parseLayoutT (l : List Char) : Option DateTime :=
  (parseCore 'T' l).bind fun pdt =>
    (readOffset pdt.2).bind fun poff =>
      if poff.2 = [] then
        some { pdt.1 with offNeg := poff.1.1, offH := poff.1.2.1, offM := poff.1.2.2 }
      else none

/-- `time.Parse` against `2006-01-02 15:04:05Z07:00`. -/
def parseLayoutSpaceOffset (l : List Char) : Option DateTime :=
  (parseCore ' ' l).bind fun pdt =>
    (readOffset pdt.2).bind fun poff =>
      if poff.2 = [] then
        some { pdt.1 with offNeg := poff.1.1, offH := poff.1.2.1, offM := poff.1.2.2 }
      else none

/-- `time.Parse` against `2006-01-02 15:04:05` (interpreted in UTC). -/
def parseLayoutSpacePlain (l : List Char) : Option DateTime :=
  (parseCore ' ' l).bind fun pdt =>
    if pdt.2 = [] then some pdt.1 else none

/-- Go `parseSQLiteTimestamp`: the empty string and an unparseable
string yield the zero `time.Time`, modelled as `none`; otherwise the
first of the three layouts that parses wins. -/
def parseSQLiteTimestamp (value : String) : Option DateTime :=
  if value = "" then none
  else
    match parseLayoutT value.data with
    | some dt => some dt
    | none =>
      match parseLayoutSpaceOffset value.data with
      | some dt => some dt
      | none => parseLayoutSpacePlain value.data

/-! ## Specification predicates and concrete fixtures -/

/-- `e` is the row of maximal id among the rows of `log` at path `p`:
the row that defines `p`'s current believed state. -/
def LatestAt (log : List FileHistoryEntry) (p : String) (e : FileHistoryEntry) : Prop :=
  e ∈ log ∧ e.path = p ∧ ∀ e' ∈ log, e'.path = p → e'.id ≤ e.id

/-- The create / modify / move / delete fixture of the test suite:
`a.md` is created, modified, renamed to `b/a.md`, then deleted. -/
def demoLog : List FileHistoryEntry :=
  [⟨1, "a.md", "h-one", "one", .created, none, 1⟩,
   ⟨2, "a.md", "h-two", "two", .modified, none, 2⟩,
   ⟨3, "b/a.md", "h-two", "two", .moved, some "a.md", 3⟩,
   ⟨4, "b/a.md", "h-two", "two", .deleted, none, 4⟩]

/-- A log recording a create of `a.md` followed by a rename to
`b/a.md`; the file has since been deleted from disk. -/
def moveChainLog : List FileHistoryEntry :=
  [⟨1, "a.md", "H", "X", .created, none, 1⟩,
   ⟨2, "b/a.md", "H", "X", .moved, some "a.md", 2⟩]

/-- A log holding two live files with identical content and base name
(`x/n.md` and `y/n.md`). -/
def twoCandLog : List FileHistoryEntry :=
  [⟨1, "x/n.md", "H", "X", .created, none, 1⟩,
   ⟨2, "y/n.md", "H", "X", .created, none, 2⟩]

/-- A snapshot in which both files of `twoCandLog` are gone and a
single new file `z/n.md` with the same content and base name
appeared. -/
def oneNewFile : List (String × FileRecord) :=
  [("z/n.md", ⟨"H", "X"⟩)]

/-- The latest-state index of `twoCandLog` in the reversed iteration
order (a legitimate Go map iteration order). -/
def reorderedLatest : List (String × FileHistorySnapshot) :=
  (latestFileSnapshots twoCandLog).reverse

/-! ## Association-list lemmas -/

theorem alookup_eq_none_iff {β : Type} {l : List (String × β)} {k : String} :
    alookup l k = none ↔ ∀ ps ∈ l, ps.1 ≠ k := by
  induction l with
  | nil => simp [alookup]
  | cons hd tl ih =>
    obtain ⟨k', v⟩ := hd
    by_cases h : k' = k
    · subst h
      simp [alookup]
    · simp [alookup, h, ih]

theorem alookup_mem {β : Type} {l : List (String × β)} {k : String} {v : β}
    (h : alookup l k = some v) : (k, v) ∈ l := by
  induction l with
  | nil => simp [alookup] at h
  | cons hd tl ih =>
    obtain ⟨k', v'⟩ := hd
    by_cases hk : k' = k
    · subst hk
      simp [alookup] at h
      subst h
      exact List.mem_cons_self _ _
    · simp only [alookup, if_neg hk] at h
      exact List.mem_cons_of_mem _ (ih h)

theorem alookup_of_mem_nodup {β : Type} {l : List (String × β)} {k : String} {v : β}
    (hmem : (k, v) ∈ l) (hnd : (l.map Prod.fst).Nodup) : alookup l k = some v := by
  induction l with
  | nil => simp at hmem
  | cons hd tl ih =>
    obtain ⟨k', v'⟩ := hd
    simp only [List.map_cons, List.nodup_cons] at hnd
    rcases List.mem_cons.mp hmem with heq | hmem'
    · injection heq with hk hv
      subst hk
      subst hv
      simp [alookup]
    · have hk : k' ≠ k := fun h => hnd.1 (h ▸ List.mem_map_of_mem Prod.fst hmem')
      simp only [alookup, if_neg hk]
      exact ih hmem' hnd.2

theorem alookup_ne_none_of_mem {β : Type} {l : List (String × β)} {k : String} {v : β}
    (hmem : (k, v) ∈ l) : alookup l k ≠ none := by
  intro h
  exact (alookup_eq_none_iff.mp h) (k, v) hmem rfl

theorem mem_unique_of_nodup_keys {β : Type} {l : List (String × β)} {k : String} {a b : β}
    (ha : (k, a) ∈ l) (hb : (k, b) ∈ l) (hnd : (l.map Prod.fst).Nodup) : a = b := by
  have h1 := alookup_of_mem_nodup ha hnd
  have h2 := alookup_of_mem_nodup hb hnd
  rw [h1] at h2
  exact Option.some_inj.mp h2

theorem alookup_perm {β : Type} {l l' : List (String × β)} (hp : l.Perm l')
    (hnd : (l.map Prod.fst).Nodup) (k : String) : alookup l k = alookup l' k := by
  cases h : alookup l k with
  | none =>
    have h' : alookup l' k = none := by
      rw [alookup_eq_none_iff] at h ⊢
      exact fun ps hps => h ps (hp.mem_iff.mpr hps)
    rw [h']
  | some v =>
    have hmem : (k, v) ∈ l' := hp.mem_iff.mp (alookup_mem h)
    have hnd' : (l'.map Prod.fst).Nodup := ((hp.map Prod.fst).nodup_iff).mp hnd
    exact (alookup_of_mem_nodup hmem hnd').symm

/-! ## Reconciliation-loop lemmas -/

theorem reconcileLoop_missing_sublist (latestL : List (String × FileHistorySnapshot))
    (cur : List (String × FileRecord)) :
    ∀ (mc : String → List FileHistorySnapshot)
      (missing : List (String × FileHistorySnapshot)),
      List.Sublist (reconcileLoop latestL cur mc missing).1 missing := by
  induction cur with
  | nil => intro mc missing; simp [reconcileLoop]
  | cons hd rest ih =>
    obtain ⟨x, fx⟩ := hd
    intro mc missing
    cases hL : alookup latestL x with
    | some snap =>
      by_cases hst : snap.status = FileHistoryStatus.deleted
      · simpa [reconcileLoop, hL, hst] using ih mc missing
      · by_cases hh : snap.hash = fx.hash
        · simpa [reconcileLoop, hL, hst, hh] using ih mc missing
        · simpa [reconcileLoop, hL, hst, hh] using ih mc missing
    | none =>
      cases hmc : mc (movementKey fx.hash x) with
      | nil =>
        simpa [reconcileLoop, hL, hmc] using ih mc missing
      | cons prev others =>
        have h := ih (fun k => if k = movementKey fx.hash x then others else mc k)
          (missing.filter (fun ps => decide (ps.1 ≠ prev.path)))
        simp only [reconcileLoop, hL, hmc]
        exact h.trans (List.filter_sublist _)

theorem reconcileLoop_out_char (latestL : List (String × FileHistorySnapshot))
    (cur : List (String × FileRecord)) :
    ∀ (mc : String → List FileHistorySnapshot)
      (missing : List (String × FileHistorySnapshot))
      (e : PendingEntry), e ∈ (reconcileLoop latestL cur mc missing).2 →
      ∃ x fx, (x, fx) ∈ cur ∧ e.path = x ∧ e.hash = fx.hash ∧ e.content = fx.content ∧
        e.status ≠ FileHistoryStatus.deleted := by
  induction cur with
  | nil => intro mc missing e he; simp [reconcileLoop] at he
  | cons hd rest ih =>
    obtain ⟨x, fx⟩ := hd
    intro mc missing e he
    have step : ∀ (e' : PendingEntry), (∃ mc' missing', e' ∈ (reconcileLoop latestL rest mc' missing').2) →
        ∃ y fy, (y, fy) ∈ (x, fx) :: rest ∧ e'.path = y ∧ e'.hash = fy.hash ∧
          e'.content = fy.content ∧ e'.status ≠ FileHistoryStatus.deleted := by
      rintro e' ⟨mc', missing', he'⟩
      obtain ⟨y, fy, hy, h1, h2, h3, h4⟩ := ih mc' missing' e' he'
      exact ⟨y, fy, List.mem_cons_of_mem _ hy, h1, h2, h3, h4⟩
    cases hL : alookup latestL x with
    | some snap =>
      by_cases hst : snap.status = FileHistoryStatus.deleted
      · simp only [reconcileLoop, hL, if_pos hst, List.mem_cons] at he
        rcases he with rfl | he
        · exact ⟨x, fx, List.mem_cons_self _ _, rfl, rfl, rfl, by intro h; cases h⟩
        · exact step e ⟨mc, missing, he⟩
      · by_cases hh : snap.hash = fx.hash
        · simp only [reconcileLoop, hL, if_neg hst, hh, ne_eq, not_true_eq_false,
            if_false] at he
          exact step e ⟨mc, missing, he⟩
        · simp only [reconcileLoop, hL, if_neg hst, ne_eq, hh, not_false_eq_true,
            if_true, List.mem_cons] at he
          rcases he with rfl | he
          · exact ⟨x, fx, List.mem_cons_self _ _, rfl, rfl, rfl, by intro h; cases h⟩
          · exact step e ⟨mc, missing, he⟩
    | none =>
      cases hmc : mc (movementKey fx.hash x) with
      | nil =>
        simp only [reconcileLoop, hL, hmc, List.mem_cons] at he
        rcases he with rfl | he
        · exact ⟨x, fx, List.mem_cons_self _ _, rfl, rfl, rfl, by intro h; cases h⟩
        · exact step e ⟨mc, missing, he⟩
      | cons prev others =>
        simp only [reconcileLoop, hL, hmc, List.mem_cons] at he
        rcases he with rfl | he
        · exact ⟨x, fx, List.mem_cons_self _ _, rfl, rfl, rfl, by intro h; cases h⟩
        · exact step e ⟨_, _, he⟩

theorem reconcileLoop_out_filter_nil (latestL : List (String × FileHistorySnapshot))
    {cur : List (String × FileRecord)} {p : String}
    (hp : p ∉ cur.map Prod.fst) (mc : String → List FileHistorySnapshot)
    (missing : List (String × FileHistorySnapshot)) :
    (reconcileLoop latestL cur mc missing).2.filter (fun e => decide (e.path = p)) = [] := by
  rw [List.filter_eq_nil_iff]
  intro e he
  obtain ⟨x, fx, hx, hpath, _, _, _⟩ := reconcileLoop_out_char latestL cur mc missing e he
  simp only [decide_eq_true_eq]
  intro hep
  exact hp (hep ▸ hpath ▸ List.mem_map_of_mem Prod.fst hx)

theorem head_pair_unique {β : Type} {x p : String} {fx f : β} {rest : List (String × β)}
    (hmem : (p, f) ∈ (x, fx) :: rest) (hnd : (((x, fx) :: rest).map Prod.fst).Nodup)
    (hx : x = p) : f = fx := by
  subst hx
  simp only [List.map_cons, List.nodup_cons] at hnd
  rcases List.mem_cons.mp hmem with heq | hmem'
  · exact congrArg Prod.snd heq
  · exact absurd (List.mem_map_of_mem Prod.fst hmem') hnd.1

theorem reconcileLoop_classify (latestL : List (String × FileHistorySnapshot))
    {cur : List (String × FileRecord)} {p : String} {f : FileRecord}
    {snap : FileHistorySnapshot}
    (hmem : (p, f) ∈ cur) (hnd : (cur.map Prod.fst).Nodup)
    (hL : alookup latestL p = some snap) :
    ∀ (mc : String → List FileHistorySnapshot)
      (missing : List (String × FileHistorySnapshot)),
      (reconcileLoop latestL cur mc missing).2.filter (fun e => decide (e.path = p)) =
        (if snap.status = FileHistoryStatus.deleted then
          [⟨p, f.hash, f.content, .created, none⟩]
        else if snap.hash = f.hash then []
        else [⟨p, f.hash, f.content, .modified, none⟩]) := by
  induction cur with
  | nil => cases hmem
  | cons hd rest ih =>
    obtain ⟨x, fx⟩ := hd
    intro mc missing
    by_cases hx : x = p
    · have hf : f = fx := head_pair_unique hmem hnd hx
      subst hx
      subst hf
      have hrest : x ∉ rest.map Prod.fst := by
        simp only [List.map_cons, List.nodup_cons] at hnd
        exact hnd.1
      have hfil : ∀ (mc' : String → List FileHistorySnapshot)
          (missing' : List (String × FileHistorySnapshot)),
          (reconcileLoop latestL rest mc' missing').2.filter
            (fun e => decide (e.path = x)) = [] :=
        fun mc' missing' => reconcileLoop_out_filter_nil latestL hrest mc' missing'
      by_cases hst : snap.status = FileHistoryStatus.deleted
      · rw [if_pos hst]
        have hloop : (reconcileLoop latestL ((x, f) :: rest) mc missing).2 =
            ⟨x, f.hash, f.content, .created, none⟩ ::
              (reconcileLoop latestL rest mc missing).2 := by
          simp [reconcileLoop, hL, hst]
        rw [hloop, List.filter_cons, if_pos (by simp), hfil]
      · by_cases hh : snap.hash = f.hash
        · rw [if_neg hst, if_pos hh]
          have hloop : (reconcileLoop latestL ((x, f) :: rest) mc missing).2 =
              (reconcileLoop latestL rest mc missing).2 := by
            simp [reconcileLoop, hL, hst, hh]
          rw [hloop, hfil]
        · rw [if_neg hst, if_neg hh]
          have hloop : (reconcileLoop latestL ((x, f) :: rest) mc missing).2 =
              ⟨x, f.hash, f.content, .modified, none⟩ ::
                (reconcileLoop latestL rest mc missing).2 := by
            simp [reconcileLoop, hL, hst, hh]
          rw [hloop, List.filter_cons, if_pos (by simp), hfil]
    · have hmem' : (p, f) ∈ rest := by
        rcases List.mem_cons.mp hmem with heq | h
        · injection heq with hk _; exact absurd hk.symm hx
        · exact h
      have hnd' : (rest.map Prod.fst).Nodup := by
        simp only [List.map_cons, List.nodup_cons] at hnd
        exact hnd.2
      have ih' := ih hmem' hnd'
      have hskip : ∀ (st : FileHistoryStatus) (prev : Option String)
          (l : List PendingEntry),
          (PendingEntry.mk x fx.hash fx.content st prev :: l).filter
            (fun e => decide (e.path = p)) = l.filter (fun e => decide (e.path = p)) := by
        intro st prev l
        rw [List.filter_cons, if_neg (by simp [hx])]
      cases hLx : alookup latestL x with
      | some snapx =>
        by_cases hst : snapx.status = FileHistoryStatus.deleted
        · have hloop : (reconcileLoop latestL ((x, fx) :: rest) mc missing).2 =
              ⟨x, fx.hash, fx.content, .created, none⟩ ::
                (reconcileLoop latestL rest mc missing).2 := by
            simp [reconcileLoop, hLx, hst]
          rw [hloop, hskip]
          exact ih' mc missing
        · by_cases hh : snapx.hash = fx.hash
          · have hloop : (reconcileLoop latestL ((x, fx) :: rest) mc missing).2 =
                (reconcileLoop latestL rest mc missing).2 := by
              simp [reconcileLoop, hLx, hst, hh]
            rw [hloop]
            exact ih' mc missing
          · have hloop : (reconcileLoop latestL ((x, fx) :: rest) mc missing).2 =
                ⟨x, fx.hash, fx.content, .modified, none⟩ ::
                  (reconcileLoop latestL rest mc missing).2 := by
              simp [reconcileLoop, hLx, hst, hh]
            rw [hloop, hskip]
            exact ih' mc missing
      | none =>
        cases hmc : mc (movementKey fx.hash x) with
        | nil =>
          have hloop : (reconcileLoop latestL ((x, fx) :: rest) mc missing).2 =
              ⟨x, fx.hash, fx.content, .created, none⟩ ::
                (reconcileLoop latestL rest mc missing).2 := by
            simp [reconcileLoop, hLx, hmc]
          rw [hloop, hskip]
          exact ih' mc missing
        | cons prev others =>
          have hloop : (reconcileLoop latestL ((x, fx) :: rest) mc missing).2 =
              ⟨x, fx.hash, fx.content, .moved, some prev.path⟩ ::
                (reconcileLoop latestL rest
                  (fun k => if k = movementKey fx.hash x then others else mc k)
                  (missing.filter (fun ps => decide (ps.1 ≠ prev.path)))).2 := by
            simp [reconcileLoop, hLx, hmc]
          rw [hloop, hskip]
          exact ih' _ _

theorem reconcileLoop_at_current (latestL : List (String × FileHistorySnapshot))
    {cur : List (String × FileRecord)} {p : String} {f : FileRecord}
    (hmem : (p, f) ∈ cur) (hnd : (cur.map Prod.fst).Nodup) :
    ∀ (mc : String → List FileHistorySnapshot)
      (missing : List (String × FileHistorySnapshot)),
      (∃ st prev, st ≠ FileHistoryStatus.deleted ∧
        (reconcileLoop latestL cur mc missing).2.filter (fun e => decide (e.path = p)) =
          [⟨p, f.hash, f.content, st, prev⟩]) ∨
      ((reconcileLoop latestL cur mc missing).2.filter (fun e => decide (e.path = p)) = [] ∧
        ∃ snap, alookup latestL p = some snap ∧ snap.status ≠ FileHistoryStatus.deleted ∧
          snap.hash = f.hash) := by
  induction cur with
  | nil => cases hmem
  | cons hd rest ih =>
    obtain ⟨x, fx⟩ := hd
    intro mc missing
    by_cases hx : x = p
    · have hf : f = fx := head_pair_unique hmem hnd hx
      subst hx
      subst hf
      have hrest : x ∉ rest.map Prod.fst := by
        simp only [List.map_cons, List.nodup_cons] at hnd
        exact hnd.1
      have hfil : ∀ (mc' : String → List FileHistorySnapshot)
          (missing' : List (String × FileHistorySnapshot)),
          (reconcileLoop latestL rest mc' missing').2.filter
            (fun e => decide (e.path = x)) = [] :=
        fun mc' missing' => reconcileLoop_out_filter_nil latestL hrest mc' missing'
      cases hL : alookup latestL x with
      | some snap =>
        by_cases hst : snap.status = FileHistoryStatus.deleted
        · have hflt : (reconcileLoop latestL ((x, f) :: rest) mc missing).2.filter
              (fun e => decide (e.path = x)) =
              [⟨x, f.hash, f.content, .created, none⟩] := by
            have hloop : (reconcileLoop latestL ((x, f) :: rest) mc missing).2 =
                ⟨x, f.hash, f.content, .created, none⟩ ::
                  (reconcileLoop latestL rest mc missing).2 := by
              simp [reconcileLoop, hL, hst]
            rw [hloop, List.filter_cons, if_pos (by simp), hfil]
          exact Or.inl ⟨.created, none, by decide, hflt⟩
        · by_cases hh : snap.hash = f.hash
          · have hflt : (reconcileLoop latestL ((x, f) :: rest) mc missing).2.filter
                (fun e => decide (e.path = x)) = [] := by
              have hloop : (reconcileLoop latestL ((x, f) :: rest) mc missing).2 =
                  (reconcileLoop latestL rest mc missing).2 := by
                simp [reconcileLoop, hL, hst, hh]
              rw [hloop, hfil]
            exact Or.inr ⟨hflt, ⟨snap, rfl, hst, hh⟩⟩
          · have hflt : (reconcileLoop latestL ((x, f) :: rest) mc missing).2.filter
                (fun e => decide (e.path = x)) =
                [⟨x, f.hash, f.content, .modified, none⟩] := by
              have hloop : (reconcileLoop latestL ((x, f) :: rest) mc missing).2 =
                  ⟨x, f.hash, f.content, .modified, none⟩ ::
                    (reconcileLoop latestL rest mc missing).2 := by
                simp [reconcileLoop, hL, hst, hh]
              rw [hloop, List.filter_cons, if_pos (by simp), hfil]
            exact Or.inl ⟨.modified, none, by decide, hflt⟩
      | none =>
        cases hmc : mc (movementKey f.hash x) with
        | nil =>
          have hflt : (reconcileLoop latestL ((x, f) :: rest) mc missing).2.filter
              (fun e => decide (e.path = x)) =
              [⟨x, f.hash, f.content, .created, none⟩] := by
            have hloop : (reconcileLoop latestL ((x, f) :: rest) mc missing).2 =
                ⟨x, f.hash, f.content, .created, none⟩ ::
                  (reconcileLoop latestL rest mc missing).2 := by
              simp [reconcileLoop, hL, hmc]
            rw [hloop, List.filter_cons, if_pos (by simp), hfil]
          exact Or.inl ⟨.created, none, by decide, hflt⟩
        | cons prev others =>
          have hflt : (reconcileLoop latestL ((x, f) :: rest) mc missing).2.filter
              (fun e => decide (e.path = x)) =
              [⟨x, f.hash, f.content, .moved, some prev.path⟩] := by
            have hloop : (reconcileLoop latestL ((x, f) :: rest) mc missing).2 =
                ⟨x, f.hash, f.content, .moved, some prev.path⟩ ::
                  (reconcileLoop latestL rest
                    (fun k => if k = movementKey f.hash x then others else mc k)
                    (missing.filter (fun ps => decide (ps.1 ≠ prev.path)))).2 := by
              simp [reconcileLoop, hL, hmc]
            rw [hloop, List.filter_cons, if_pos (by simp), hfil]
          exact Or.inl ⟨.moved, some prev.path, by decide, hflt⟩
    · have hmem' : (p, f) ∈ rest := by
        rcases List.mem_cons.mp hmem with heq | h
        · injection heq with hk _; exact absurd hk.symm hx
        · exact h
      have hnd' : (rest.map Prod.fst).Nodup := by
        simp only [List.map_cons, List.nodup_cons] at hnd
        exact hnd.2
      have ih' := ih hmem' hnd'
      have hskip : ∀ (st : FileHistoryStatus) (prev : Option String)
          (l : List PendingEntry),
          (PendingEntry.mk x fx.hash fx.content st prev :: l).filter
            (fun e => decide (e.path = p)) = l.filter (fun e => decide (e.path = p)) := by
        intro st prev l
        rw [List.filter_cons, if_neg (by simp [hx])]
      cases hL : alookup latestL x with
      | some snap =>
        by_cases hst : snap.status = FileHistoryStatus.deleted
        · have hloop : (reconcileLoop latestL ((x, fx) :: rest) mc missing).2 =
              ⟨x, fx.hash, fx.content, .created, none⟩ ::
                (reconcileLoop latestL rest mc missing).2 := by
            simp [reconcileLoop, hL, hst]
          rw [hloop, hskip]
          exact ih' mc missing
        · by_cases hh : snap.hash = fx.hash
          · have hloop : (reconcileLoop latestL ((x, fx) :: rest) mc missing).2 =
                (reconcileLoop latestL rest mc missing).2 := by
              simp [reconcileLoop, hL, hst, hh]
            rw [hloop]
            exact ih' mc missing
          · have hloop : (reconcileLoop latestL ((x, fx) :: rest) mc missing).2 =
                ⟨x, fx.hash, fx.content, .modified, none⟩ ::
                  (reconcileLoop latestL rest mc missing).2 := by
              simp [reconcileLoop, hL, hst, hh]
            rw [hloop, hskip]
            exact ih' mc missing
      | none =>
        cases hmc : mc (movementKey fx.hash x) with
        | nil =>
          have hloop : (reconcileLoop latestL ((x, fx) :: rest) mc missing).2 =
              ⟨x, fx.hash, fx.content, .created, none⟩ ::
                (reconcileLoop latestL rest mc missing).2 := by
            simp [reconcileLoop, hL, hmc]
          rw [hloop, hskip]
          exact ih' mc missing
        | cons prev others =>
          have hloop : (reconcileLoop latestL ((x, fx) :: rest) mc missing).2 =
              ⟨x, fx.hash, fx.content, .moved, some prev.path⟩ ::
                (reconcileLoop latestL rest
                  (fun k => if k = movementKey fx.hash x then others else mc k)
                  (missing.filter (fun ps => decide (ps.1 ≠ prev.path)))).2 := by
            simp [reconcileLoop, hL, hmc]
          rw [hloop, hskip]
          exact ih' _ _

theorem reconcileLoop_all_silent (latestL : List (String × FileHistorySnapshot))
    {cur : List (String × FileRecord)}
    (h : ∀ x fx, (x, fx) ∈ cur → ∃ snap, alookup latestL x = some snap ∧
      snap.status ≠ FileHistoryStatus.deleted ∧ snap.hash = fx.hash) :
    ∀ (mc : String → List FileHistorySnapshot)
      (missing : List (String × FileHistorySnapshot)),
      reconcileLoop latestL cur mc missing = (missing, []) := by
  induction cur with
  | nil => intro mc missing; simp [reconcileLoop]
  | cons hd rest ih =>
    obtain ⟨x, fx⟩ := hd
    intro mc missing
    obtain ⟨snap, hL, hst, hh⟩ := h x fx (List.mem_cons_self _ _)
    have hloop : reconcileLoop latestL ((x, fx) :: rest) mc missing =
        reconcileLoop latestL rest mc missing := by
      simp [reconcileLoop, hL, hst, hh]
    rw [hloop]
    exact ih (fun y fy hy => h y fy (List.mem_cons_of_mem _ hy)) mc missing

theorem reconcileLoop_new_unique (latestL : List (String × FileHistorySnapshot))
    {cur : List (String × FileRecord)} {q : String} {f : FileRecord}
    (hmem : (q, f) ∈ cur) (hnd : (cur.map Prod.fst).Nodup)
    (hLq : alookup latestL q = none)
    (hOther : ∀ x fx, (x, fx) ∈ cur → x ≠ q → alookup latestL x = none →
      movementKey fx.hash x ≠ movementKey f.hash q) :
    ∀ (mc : String → List FileHistorySnapshot)
      (missing : List (String × FileHistorySnapshot)),
      (∀ s0 tail, mc (movementKey f.hash q) = s0 :: tail →
        (reconcileLoop latestL cur mc missing).2.filter (fun e => decide (e.path = q)) =
          [⟨q, f.hash, f.content, .moved, some s0.path⟩] ∧
        ∀ ps ∈ (reconcileLoop latestL cur mc missing).1, ps.1 ≠ s0.path) ∧
      (mc (movementKey f.hash q) = [] →
        (reconcileLoop latestL cur mc missing).2.filter (fun e => decide (e.path = q)) =
          [⟨q, f.hash, f.content, .created, none⟩]) := by
  induction cur with
  | nil => cases hmem
  | cons hd rest ih =>
    obtain ⟨x, fx⟩ := hd
    intro mc missing
    by_cases hx : x = q
    · have hf : f = fx := head_pair_unique hmem hnd hx
      subst hx
      subst hf
      have hrest : x ∉ rest.map Prod.fst := by
        simp only [List.map_cons, List.nodup_cons] at hnd
        exact hnd.1
      have hfil : ∀ (mc' : String → List FileHistorySnapshot)
          (missing' : List (String × FileHistorySnapshot)),
          (reconcileLoop latestL rest mc' missing').2.filter
            (fun e => decide (e.path = x)) = [] :=
        fun mc' missing' => reconcileLoop_out_filter_nil latestL hrest mc' missing'
      constructor
      · intro s0 tail hmc
        have hloop : reconcileLoop latestL ((x, f) :: rest) mc missing =
            (let r := reconcileLoop latestL rest
              (fun k => if k = movementKey f.hash x then tail else mc k)
              (missing.filter (fun ps => decide (ps.1 ≠ s0.path)))
            (r.1, ⟨x, f.hash, f.content, .moved, some s0.path⟩ :: r.2)) := by
          simp [reconcileLoop, hLq, hmc]
        rw [hloop]
        constructor
        · rw [List.filter_cons, if_pos (by simp), hfil]
        · intro ps hps
          have hsub := reconcileLoop_missing_sublist latestL rest
            (fun k => if k = movementKey f.hash x then tail else mc k)
            (missing.filter (fun ps => decide (ps.1 ≠ s0.path)))
          have : ps ∈ missing.filter (fun ps => decide (ps.1 ≠ s0.path)) :=
            hsub.subset hps
          have := List.of_mem_filter this
          simpa using this
      · intro hmc
        have hloop : (reconcileLoop latestL ((x, f) :: rest) mc missing).2 =
            ⟨x, f.hash, f.content, .created, none⟩ ::
              (reconcileLoop latestL rest mc missing).2 := by
          simp [reconcileLoop, hLq, hmc]
        rw [hloop, List.filter_cons, if_pos (by simp), hfil]
    · have hmem' : (q, f) ∈ rest := by
        rcases List.mem_cons.mp hmem with heq | h
        · injection heq with hk _; exact absurd hk.symm hx
        · exact h
      have hnd' : (rest.map Prod.fst).Nodup := by
        simp only [List.map_cons, List.nodup_cons] at hnd
        exact hnd.2
      have hO' : ∀ y fy, (y, fy) ∈ rest → y ≠ q → alookup latestL y = none →
          movementKey fy.hash y ≠ movementKey f.hash q :=
        fun y fy hy => hOther y fy (List.mem_cons_of_mem _ hy)
      have ih' := ih hmem' hnd' hO'
      have hskip : ∀ (st : FileHistoryStatus) (prev : Option String)
          (l : List PendingEntry),
          (PendingEntry.mk x fx.hash fx.content st prev :: l).filter
            (fun e => decide (e.path = q)) = l.filter (fun e => decide (e.path = q)) := by
        intro st prev l
        rw [List.filter_cons, if_neg (by simp [hx])]
      cases hL : alookup latestL x with
      | some snap =>
        by_cases hst : snap.status = FileHistoryStatus.deleted
        · have hloop : reconcileLoop latestL ((x, fx) :: rest) mc missing =
              (let r := reconcileLoop latestL rest mc missing
              (r.1, ⟨x, fx.hash, fx.content, .created, none⟩ :: r.2)) := by
            simp [reconcileLoop, hL, hst]
          rw [hloop]
          refine ⟨fun s0 tail hmc => ?_, fun hmc => ?_⟩
          · obtain ⟨h1, h2⟩ := (ih' mc missing).1 s0 tail hmc
            exact ⟨by rw [hskip]; exact h1, h2⟩
          · rw [hskip]
            exact (ih' mc missing).2 hmc
        · by_cases hh : snap.hash = fx.hash
          · have hloop : reconcileLoop latestL ((x, fx) :: rest) mc missing =
                reconcileLoop latestL rest mc missing := by
              simp [reconcileLoop, hL, hst, hh]
            rw [hloop]
            exact ih' mc missing
          · have hloop : reconcileLoop latestL ((x, fx) :: rest) mc missing =
                (let r := reconcileLoop latestL rest mc missing
                (r.1, ⟨x, fx.hash, fx.content, .modified, none⟩ :: r.2)) := by
              simp [reconcileLoop, hL, hst, hh]
            rw [hloop]
            refine ⟨fun s0 tail hmc => ?_, fun hmc => ?_⟩
            · obtain ⟨h1, h2⟩ := (ih' mc missing).1 s0 tail hmc
              exact ⟨by rw [hskip]; exact h1, h2⟩
            · rw [hskip]
              exact (ih' mc missing).2 hmc
      | none =>
        have hkey : movementKey fx.hash x ≠ movementKey f.hash q :=
          hOther x fx (List.mem_cons_self _ _) hx hL
        cases hmc0 : mc (movementKey fx.hash x) with
        | nil =>
          have hloop : reconcileLoop latestL ((x, fx) :: rest) mc missing =
              (let r := reconcileLoop latestL rest mc missing
              (r.1, ⟨x, fx.hash, fx.content, .created, none⟩ :: r.2)) := by
            simp [reconcileLoop, hL, hmc0]
          rw [hloop]
          refine ⟨fun s0 tail hmc => ?_, fun hmc => ?_⟩
          · obtain ⟨h1, h2⟩ := (ih' mc missing).1 s0 tail hmc
            exact ⟨by rw [hskip]; exact h1, h2⟩
          · rw [hskip]
            exact (ih' mc missing).2 hmc
        | cons prev others =>
          have hloop : reconcileLoop latestL ((x, fx) :: rest) mc missing =
              (let r := reconcileLoop latestL rest
                (fun k => if k = movementKey fx.hash x then others else mc k)
                (missing.filter (fun ps => decide (ps.1 ≠ prev.path)))
              (r.1, ⟨x, fx.hash, fx.content, .moved, some prev.path⟩ :: r.2)) := by
            simp [reconcileLoop, hL, hmc0]
          rw [hloop]
          have hne : ¬ movementKey f.hash q = movementKey fx.hash x :=
            fun h => hkey h.symm
          have hmck : (if movementKey f.hash q = movementKey fx.hash x then others
              else mc (movementKey f.hash q)) = mc (movementKey f.hash q) := if_neg hne
          have ih'' := ih' (fun k => if k = movementKey fx.hash x then others else mc k)
            (missing.filter (fun ps => decide (ps.1 ≠ prev.path)))
          refine ⟨fun s0 tail hmc => ?_, fun hmc => ?_⟩
          · obtain ⟨h1, h2⟩ := ih''.1 s0 tail (by rw [hmck]; exact hmc)
            exact ⟨by rw [hskip]; exact h1, h2⟩
          · rw [hskip]
            exact ih''.2 (by rw [hmck]; exact hmc)

theorem reconcileLoop_fifo (latestL : List (String × FileHistorySnapshot))
    (cur : List (String × FileRecord)) :
    ∀ (mc : String → List FileHistorySnapshot)
      (missing : List (String × FileHistorySnapshot)) (k : String),
      ∃ n, (reconcileLoop latestL cur mc missing).2.filterMap
          (fun e => if e.status = FileHistoryStatus.moved ∧ movementKey e.hash e.path = k
            then e.previousPath else none) =
        ((mc k).map (fun s => s.path)).take n := by
  induction cur with
  | nil =>
    intro mc missing k
    exact ⟨0, by simp [reconcileLoop]⟩
  | cons hd rest ih =>
    obtain ⟨x, fx⟩ := hd
    intro mc missing k
    cases hL : alookup latestL x with
    | some snap =>
      by_cases hst : snap.status = FileHistoryStatus.deleted
      · have hloop : (reconcileLoop latestL ((x, fx) :: rest) mc missing).2 =
            ⟨x, fx.hash, fx.content, .created, none⟩ ::
              (reconcileLoop latestL rest mc missing).2 := by
          simp [reconcileLoop, hL, hst]
        obtain ⟨n, hn⟩ := ih mc missing k
        refine ⟨n, ?_⟩
        rw [hloop, List.filterMap_cons]
        simpa using hn
      · by_cases hh : snap.hash = fx.hash
        · have hloop : (reconcileLoop latestL ((x, fx) :: rest) mc missing).2 =
              (reconcileLoop latestL rest mc missing).2 := by
            simp [reconcileLoop, hL, hst, hh]
          obtain ⟨n, hn⟩ := ih mc missing k
          exact ⟨n, by rw [hloop]; exact hn⟩
        · have hloop : (reconcileLoop latestL ((x, fx) :: rest) mc missing).2 =
              ⟨x, fx.hash, fx.content, .modified, none⟩ ::
                (reconcileLoop latestL rest mc missing).2 := by
            simp [reconcileLoop, hL, hst, hh]
          obtain ⟨n, hn⟩ := ih mc missing k
          refine ⟨n, ?_⟩
          rw [hloop, List.filterMap_cons]
          simpa using hn
    | none =>
      cases hmc0 : mc (movementKey fx.hash x) with
      | nil =>
        have hloop : (reconcileLoop latestL ((x, fx) :: rest) mc missing).2 =
            ⟨x, fx.hash, fx.content, .created, none⟩ ::
              (reconcileLoop latestL rest mc missing).2 := by
          simp [reconcileLoop, hL, hmc0]
        obtain ⟨n, hn⟩ := ih mc missing k
        refine ⟨n, ?_⟩
        rw [hloop, List.filterMap_cons]
        simpa using hn
      | cons prev others =>
        have hloop : (reconcileLoop latestL ((x, fx) :: rest) mc missing).2 =
            ⟨x, fx.hash, fx.content, .moved, some prev.path⟩ ::
              (reconcileLoop latestL rest
                (fun kk => if kk = movementKey fx.hash x then others else mc kk)
                (missing.filter (fun ps => decide (ps.1 ≠ prev.path)))).2 := by
          simp [reconcileLoop, hL, hmc0]
        obtain ⟨n, hn⟩ := ih (fun kk => if kk = movementKey fx.hash x then others else mc kk)
          (missing.filter (fun ps => decide (ps.1 ≠ prev.path))) k
        by_cases hkk : movementKey fx.hash x = k
        · subst hkk
          have hupd : (if movementKey fx.hash x = movementKey fx.hash x then others
              else mc (movementKey fx.hash x)) = others := if_pos rfl
          rw [hupd] at hn
          refine ⟨n + 1, ?_⟩
          rw [hloop, List.filterMap_cons]
          simp only [hmc0, List.map_cons, List.take_succ_cons]
          simp
          simpa using hn
        · have hupd : (if k = movementKey fx.hash x then others else mc k) = mc k :=
            if_neg (fun h => hkk h.symm)
          rw [hupd] at hn
          refine ⟨n, ?_⟩
          rw [hloop, List.filterMap_cons]
          simp [hkk]
          simpa using hn

theorem reconcileLoop_missing_fate (latestL : List (String × FileHistorySnapshot))
    (cur : List (String × FileRecord)) :
    ∀ (mc : String → List FileHistorySnapshot)
      (missing : List (String × FileHistorySnapshot)) (p : String)
      (s : FileHistorySnapshot), (p, s) ∈ missing →
      p ∈ (reconcileLoop latestL cur mc missing).1.map Prod.fst ∨
      ∃ e ∈ (reconcileLoop latestL cur mc missing).2,
        e.status = FileHistoryStatus.moved ∧ e.previousPath = some p := by
  induction cur with
  | nil =>
    intro mc missing p s hps
    exact Or.inl (by simpa [reconcileLoop] using List.mem_map_of_mem Prod.fst hps)
  | cons hd rest ih =>
    obtain ⟨x, fx⟩ := hd
    intro mc missing p s hps
    have bump : ∀ (entry : PendingEntry)
        (mc' : String → List FileHistorySnapshot)
        (missing' : List (String × FileHistorySnapshot)),
        (p ∈ (reconcileLoop latestL rest mc' missing').1.map Prod.fst ∨
          ∃ e ∈ (reconcileLoop latestL rest mc' missing').2,
            e.status = FileHistoryStatus.moved ∧ e.previousPath = some p) →
        (p ∈ (reconcileLoop latestL rest mc' missing').1.map Prod.fst ∨
          ∃ e ∈ entry :: (reconcileLoop latestL rest mc' missing').2,
            e.status = FileHistoryStatus.moved ∧ e.previousPath = some p) := by
      rintro entry mc' missing' (hl | ⟨e, he, h1, h2⟩)
      · exact Or.inl hl
      · exact Or.inr ⟨e, List.mem_cons_of_mem _ he, h1, h2⟩
    cases hL : alookup latestL x with
    | some snap =>
      by_cases hst : snap.status = FileHistoryStatus.deleted
      · have hloop : reconcileLoop latestL ((x, fx) :: rest) mc missing =
            (let r := reconcileLoop latestL rest mc missing
            (r.1, ⟨x, fx.hash, fx.content, .created, none⟩ :: r.2)) := by
          simp [reconcileLoop, hL, hst]
        rw [hloop]
        exact bump _ mc missing (ih mc missing p s hps)
      · by_cases hh : snap.hash = fx.hash
        · have hloop : reconcileLoop latestL ((x, fx) :: rest) mc missing =
              reconcileLoop latestL rest mc missing := by
            simp [reconcileLoop, hL, hst, hh]
          rw [hloop]
          exact ih mc missing p s hps
        · have hloop : reconcileLoop latestL ((x, fx) :: rest) mc missing =
              (let r := reconcileLoop latestL rest mc missing
              (r.1, ⟨x, fx.hash, fx.content, .modified, none⟩ :: r.2)) := by
            simp [reconcileLoop, hL, hst, hh]
          rw [hloop]
          exact bump _ mc missing (ih mc missing p s hps)
    | none =>
      cases hmc0 : mc (movementKey fx.hash x) with
      | nil =>
        have hloop : reconcileLoop latestL ((x, fx) :: rest) mc missing =
            (let r := reconcileLoop latestL rest mc missing
            (r.1, ⟨x, fx.hash, fx.content, .created, none⟩ :: r.2)) := by
          simp [reconcileLoop, hL, hmc0]
        rw [hloop]
        exact bump _ mc missing (ih mc missing p s hps)
      | cons prev others =>
        have hloop : reconcileLoop latestL ((x, fx) :: rest) mc missing =
            (let r := reconcileLoop latestL rest
              (fun kk => if kk = movementKey fx.hash x then others else mc kk)
              (missing.filter (fun ps => decide (ps.1 ≠ prev.path)))
            (r.1, ⟨x, fx.hash, fx.content, .moved, some prev.path⟩ :: r.2)) := by
          simp [reconcileLoop, hL, hmc0]
        rw [hloop]
        by_cases hpp : prev.path = p
        · exact Or.inr ⟨⟨x, fx.hash, fx.content, .moved, some prev.path⟩,
            List.mem_cons_self _ _, rfl, by rw [hpp]⟩
        · have hps' : (p, s) ∈ missing.filter (fun ps => decide (ps.1 ≠ prev.path)) :=
            List.mem_filter.mpr ⟨hps, by simp; exact fun h => hpp h.symm⟩
          exact bump _ _ _ (ih _ _ p s hps')

/-! ## Pass-level lemmas -/

theorem capturePass_eq (latestL : List (String × FileHistorySnapshot))
    (current : List (String × FileRecord)) :
    capturePass latestL current =
      (reconcileLoop latestL current (initialCandidates (deletionScan latestL current))
        (deletionScan latestL current)).2 ++
      deletedRows (reconcileLoop latestL current
        (initialCandidates (deletionScan latestL current))
        (deletionScan latestL current)).1 := rfl

theorem deletedRows_mem {l : List (String × FileHistorySnapshot)} {e : PendingEntry}
    (he : e ∈ deletedRows l) :
    ∃ ps ∈ l, ps.2.status ≠ FileHistoryStatus.deleted ∧
      e = ⟨ps.1, ps.2.hash, ps.2.content, FileHistoryStatus.deleted, none⟩ := by
  unfold deletedRows at he
  obtain ⟨ps, hps, hmap⟩ := List.mem_filterMap.mp he
  by_cases h : ps.2.status = FileHistoryStatus.deleted
  · rw [if_pos h] at hmap
    cases hmap
  · rw [if_neg h] at hmap
    exact ⟨ps, hps, h, (Option.some_inj.mp hmap).symm⟩

theorem deletedRows_status {l : List (String × FileHistorySnapshot)} {e : PendingEntry}
    (he : e ∈ deletedRows l) : e.status = FileHistoryStatus.deleted := by
  obtain ⟨ps, _, _, heq⟩ := deletedRows_mem he
  rw [heq]

theorem deletionScan_mem {latestL : List (String × FileHistorySnapshot)}
    {current : List (String × FileRecord)} {ps : String × FileHistorySnapshot} :
    ps ∈ deletionScan latestL current ↔
      ps ∈ latestL ∧ ¬ ps.1 ∈ aliasPaths latestL ∧ alookup current ps.1 = none := by
  unfold deletionScan
  rw [List.mem_filter]
  simp only [decide_eq_true_eq]

theorem deletedRows_filter_nil (latestL : List (String × FileHistorySnapshot))
    {current : List (String × FileRecord)} {p : String} {f : FileRecord}
    (hcur : (p, f) ∈ current) (mc : String → List FileHistorySnapshot) :
    (deletedRows (reconcileLoop latestL current mc (deletionScan latestL current)).1).filter
      (fun e => decide (e.path = p)) = [] := by
  rw [List.filter_eq_nil_iff]
  intro e he
  simp only [decide_eq_true_eq]
  intro hep
  obtain ⟨ps, hps, _, heq⟩ := deletedRows_mem he
  have hsub := (reconcileLoop_missing_sublist latestL current mc
    (deletionScan latestL current)).subset hps
  have hnone : alookup current ps.1 = none := (deletionScan_mem.mp hsub).2.2
  have hp1 : ps.1 = p := by rw [heq] at hep; exact hep
  rw [hp1] at hnone
  exact alookup_ne_none_of_mem hcur hnone

theorem filter_eq_singleton_of_unique {α : Type} {l : List α} {a : α}
    {pr : α → Bool} (hnd : l.Nodup) (ha : a ∈ l) (hpa : pr a = true)
    (huniq : ∀ b ∈ l, pr b = true → b = a) : l.filter pr = [a] := by
  induction l with
  | nil => cases ha
  | cons hd tl ih =>
    rw [List.nodup_cons] at hnd
    by_cases hhd : hd = a
    · subst hhd
      rw [List.filter_cons, if_pos hpa]
      have htl : tl.filter pr = [] := by
        rw [List.filter_eq_nil_iff]
        intro b hb hpb
        exact hnd.1 ((huniq b (List.mem_cons_of_mem _ hb) hpb) ▸ hb)
      rw [htl]
    · have ha' : a ∈ tl := by
        rcases List.mem_cons.mp ha with h | h
        · exact absurd h.symm hhd
        · exact h
      have hphd : ¬ pr hd = true :=
        fun h => hhd (huniq hd (List.mem_cons_self _ _) h)
      rw [List.filter_cons, if_neg hphd]
      exact ih hnd.2 ha' (fun b hb hpb => huniq b (List.mem_cons_of_mem _ hb) hpb)

/-- C7: a path present in the current snapshot whose latest log entry
has status `deleted` gets exactly one new row in the pass: a `created`
row with null `previousPath` and the file's current hash and content —
never `modified`, never `moved` — regardless of whether the content
matches what was recorded before the deletion. -/
theorem claim_C7_reappear_after_delete
    (latestL : List (String × FileHistorySnapshot))
    (current : List (String × FileRecord)) (p : String) (f : FileRecord)
    (snap : FileHistorySnapshot)
    (hnd : (current.map Prod.fst).Nodup)
    (hcur : (p, f) ∈ current)
    (hL : alookup latestL p = some snap)
    (hdel : snap.status = FileHistoryStatus.deleted) :
    (capturePass latestL current).filter (fun e => decide (e.path = p)) =
      [⟨p, f.hash, f.content, FileHistoryStatus.created, none⟩] := by
  rw [capturePass_eq, List.filter_append,
    reconcileLoop_classify latestL hcur hnd hL _ _, if_pos hdel,
    deletedRows_filter_nil latestL hcur]
  simp

/-- Witness for C7 at a concrete input: `a.md` was deleted in the log
and reappears on disk with different content; the pass records exactly
one `created` row for it. -/
theorem claim_C7_witness :
    (capturePass [("a.md", ⟨"a.md", "H", "X", FileHistoryStatus.deleted, none⟩)]
        [("a.md", ⟨"H2", "Y"⟩)]).filter (fun e => decide (e.path = "a.md")) =
      [⟨"a.md", "H2", "Y", FileHistoryStatus.created, none⟩] :=
  claim_C7_reappear_after_delete
    [("a.md", ⟨"a.md", "H", "X", FileHistoryStatus.deleted, none⟩)]
    [("a.md", ⟨"H2", "Y"⟩)] "a.md" ⟨"H2", "Y"⟩
    ⟨"a.md", "H", "X", FileHistoryStatus.deleted, none⟩
    (by decide) (by decide) (by decide) (by decide)

/-- C10: when a file reappears at an alias path (a path recorded as
the `previousPath` of some latest `moved` row) whose own latest entry
is non-deleted, the pass appends no row for that path if the file's
hash equals the latest entry's hash, and exactly one `modified` row if
it differs; it never records `created` or `moved` there. -/
theorem claim_C10_alias_reappear
    (latestL : List (String × FileHistorySnapshot))
    (current : List (String × FileRecord)) (p : String) (f : FileRecord)
    (snap : FileHistorySnapshot)
    (hnd : (current.map Prod.fst).Nodup)
    (hcur : (p, f) ∈ current)
    (hL : alookup latestL p = some snap)
    (hndel : snap.status ≠ FileHistoryStatus.deleted)
    (_halias : p ∈ aliasPaths latestL) :
    (f.hash = snap.hash →
      (capturePass latestL current).filter (fun e => decide (e.path = p)) = []) ∧
    (f.hash ≠ snap.hash →
      (capturePass latestL current).filter (fun e => decide (e.path = p)) =
        [⟨p, f.hash, f.content, FileHistoryStatus.modified, none⟩]) := by
  constructor
  · intro hh
    rw [capturePass_eq, List.filter_append,
      reconcileLoop_classify latestL hcur hnd hL _ _, if_neg hndel, if_pos hh.symm,
      deletedRows_filter_nil latestL hcur]
    rfl
  · intro hh
    rw [capturePass_eq, List.filter_append,
      reconcileLoop_classify latestL hcur hnd hL _ _, if_neg hndel,
      if_neg (fun h => hh h.symm),
      deletedRows_filter_nil latestL hcur]
    simp

/-- Witness for C10 at a concrete input: `a.md` is the recorded source
of the latest move of `b.md` but also still has a live latest entry;
it reappears unchanged (no row) and changed (one `modified` row). -/
theorem claim_C10_witness :
    ((⟨"H", "X"⟩ : FileRecord).hash = "H" →
      (capturePass
          [("a.md", ⟨"a.md", "H", "X", FileHistoryStatus.created, none⟩),
           ("b.md", ⟨"b.md", "H", "X", FileHistoryStatus.moved, some "a.md"⟩)]
          [("a.md", ⟨"H", "X"⟩), ("b.md", ⟨"H", "X"⟩)]).filter
        (fun e => decide (e.path = "a.md")) = []) ∧
    ((⟨"H", "X"⟩ : FileRecord).hash ≠ "H" →
      (capturePass
          [("a.md", ⟨"a.md", "H", "X", FileHistoryStatus.created, none⟩),
           ("b.md", ⟨"b.md", "H", "X", FileHistoryStatus.moved, some "a.md"⟩)]
          [("a.md", ⟨"H", "X"⟩), ("b.md", ⟨"H", "X"⟩)]).filter
        (fun e => decide (e.path = "a.md")) =
        [⟨"a.md", "H", "X", FileHistoryStatus.modified, none⟩]) :=
  claim_C10_alias_reappear
    [("a.md", ⟨"a.md", "H", "X", FileHistoryStatus.created, none⟩),
     ("b.md", ⟨"b.md", "H", "X", FileHistoryStatus.moved, some "a.md"⟩)]
    [("a.md", ⟨"H", "X"⟩), ("b.md", ⟨"H", "X"⟩)] "a.md" ⟨"H", "X"⟩
    ⟨"a.md", "H", "X", FileHistoryStatus.created, none⟩
    (by decide) (by decide) (by decide) (by decide) (by decide)

theorem not_mem_keys_of_alookup_none {β : Type} {l : List (String × β)} {k : String}
    (h : alookup l k = none) : k ∉ l.map Prod.fst := by
  intro hk
  obtain ⟨ps, hps, hfst⟩ := List.mem_map.mp hk
  exact (alookup_eq_none_iff.mp h) ps hps hfst

/-- C1 (amended): in a pass where `p` is the *only* deletion candidate
with its movement key (non-deleted latest entry, absent from the
snapshot, not an alias path) and `q` is the *only* never-seen snapshot
path with that key (equal hash, equal base name), the pass appends
exactly one row for `q` — `moved` with `previousPath = p` — and
appends no row at all for `p` (in particular no `deleted` row).  The
uniqueness hypotheses are necessary: see the counterexample. -/
theorem claim_C1_unique_rename_moved
    (latestL : List (String × FileHistorySnapshot))
    (current : List (String × FileRecord)) (p q : String)
    (sp : FileHistorySnapshot) (f : FileRecord)
    (hndL : (latestL.map Prod.fst).Nodup) (hndC : (current.map Prod.fst).Nodup)
    (hp : alookup latestL p = some sp) (hsp : sp.path = p)
    (hpdel : sp.status ≠ FileHistoryStatus.deleted)
    (hpAlias : ¬ p ∈ aliasPaths latestL) (hpAbs : alookup current p = none)
    (hq : (q, f) ∈ current) (hqNew : alookup latestL q = none)
    (hhash : f.hash = sp.hash) (hbase : baseName q = baseName p)
    (hUniqueCand : ∀ ps ∈ latestL, ps.1 ≠ p →
      ¬(ps.2.status ≠ FileHistoryStatus.deleted ∧ ¬ ps.1 ∈ aliasPaths latestL ∧
        alookup current ps.1 = none ∧
        movementKey ps.2.hash ps.1 = movementKey sp.hash p))
    (hUniqueNew : ∀ qs ∈ current, qs.1 ≠ q → alookup latestL qs.1 = none →
      movementKey qs.2.hash qs.1 ≠ movementKey f.hash q) :
    (capturePass latestL current).filter (fun e => decide (e.path = q)) =
      [⟨q, f.hash, f.content, FileHistoryStatus.moved, some p⟩] ∧
    ∀ e ∈ capturePass latestL current, e.path ≠ p := by
  have hkeyeq : movementKey f.hash q = movementKey sp.hash p := by
    unfold movementKey
    rw [hhash, hbase]
  -- the movement-candidate list for the key is exactly [sp]
  have hpmem : (p, sp) ∈ latestL := alookup_mem hp
  have hndL' : latestL.Nodup := List.Nodup.of_map _ hndL
  have hscanNodup : (deletionScan latestL current).Nodup :=
    List.Nodup.filter _ hndL'
  have hpscan : (p, sp) ∈ deletionScan latestL current :=
    deletionScan_mem.mpr ⟨hpmem, hpAlias, hpAbs⟩
  have hfiltered : (deletionScan latestL current).filter
      (fun ps => decide (ps.2.status ≠ FileHistoryStatus.deleted ∧
        movementKey ps.2.hash ps.1 = movementKey sp.hash p)) = [(p, sp)] := by
    apply filter_eq_singleton_of_unique hscanNodup hpscan
    · simp only [decide_eq_true_eq]
      exact ⟨hpdel, trivial⟩
    · intro ps hps hpr
      simp only [decide_eq_true_eq] at hpr
      obtain ⟨hmemL, halias', hnone'⟩ := deletionScan_mem.mp hps
      by_cases hps1 : ps.1 = p
      · have : ps.2 = sp := by
          have : (p, ps.2) ∈ latestL := by
            have : ps = (ps.1, ps.2) := rfl
            rw [this, hps1] at hmemL
            exact hmemL
          exact mem_unique_of_nodup_keys this hpmem hndL
        calc ps = (ps.1, ps.2) := rfl
          _ = (p, sp) := by rw [hps1, this]
      · exact absurd ⟨hpr.1, halias', hnone', hpr.2⟩ (hUniqueCand ps hmemL hps1)
  have hcand : initialCandidates (deletionScan latestL current)
      (movementKey f.hash q) = [sp] := by
    unfold initialCandidates
    rw [hkeyeq, hfiltered]
    rfl
  have hO : ∀ x fx, (x, fx) ∈ current → x ≠ q → alookup latestL x = none →
      movementKey fx.hash x ≠ movementKey f.hash q :=
    fun x fx hx hxq hnone => hUniqueNew (x, fx) hx hxq hnone
  have hmain := (reconcileLoop_new_unique latestL hq hndC hqNew hO
    (initialCandidates (deletionScan latestL current))
    (deletionScan latestL current)).1 sp [] hcand
  constructor
  · rw [capturePass_eq, List.filter_append, hmain.1, deletedRows_filter_nil latestL hq]
    rw [hsp]
    simp
  · intro e he hep
    rw [capturePass_eq] at he
    rcases List.mem_append.mp he with hloop | hdel
    · obtain ⟨x, fx, hx, hpath, _, _, _⟩ :=
        reconcileLoop_out_char latestL current _ _ e hloop
      have : x = p := by rw [← hpath, hep]
      subst this
      exact alookup_ne_none_of_mem hx hpAbs
    · obtain ⟨ps, hps, _, heq⟩ := deletedRows_mem hdel
      have hps1 : ps.1 = p := by rw [heq] at hep; exact hep
      have := hmain.2 ps hps
      rw [hsp] at this
      exact this hps1

/-- Witness for C1 at a concrete input: `old/doc.md` is the unique
deletion candidate and `new/doc.md` the unique matching new path; the
pass records `moved` with `previousPath = old/doc.md` and nothing for
`old/doc.md`. -/
theorem claim_C1_witness :
    (capturePass [("old/doc.md", ⟨"old/doc.md", "H", "X", FileHistoryStatus.created, none⟩)]
        [("new/doc.md", ⟨"H", "X"⟩)]).filter (fun e => decide (e.path = "new/doc.md")) =
      [⟨"new/doc.md", "H", "X", FileHistoryStatus.moved, some "old/doc.md"⟩] ∧
    ∀ e ∈ capturePass [("old/doc.md", ⟨"old/doc.md", "H", "X", FileHistoryStatus.created, none⟩)]
        [("new/doc.md", ⟨"H", "X"⟩)], e.path ≠ "old/doc.md" :=
  claim_C1_unique_rename_moved
    [("old/doc.md", ⟨"old/doc.md", "H", "X", FileHistoryStatus.created, none⟩)]
    [("new/doc.md", ⟨"H", "X"⟩)] "old/doc.md" "new/doc.md"
    ⟨"old/doc.md", "H", "X", FileHistoryStatus.created, none⟩ ⟨"H", "X"⟩
    (by decide) (by decide) (by decide) (by decide) (by decide) (by decide)
    (by decide) (by decide) (by decide) (by decide) (by decide) (by decide)
    (by decide)

/-- C1 counterexample: with two deletion candidates sharing the
movement key (`x/n.md` recorded first, `y/n.md` second) and one new
path `z/n.md`, the path `y/n.md` satisfies every condition of the
claim (deletion candidate; `z/n.md` never seen, equal hash, equal base
name), yet no `moved` row references it and a `deleted` row for it
*is* appended in the same pass — so the claim without uniqueness of
the candidate is false. -/
theorem claim_C1_counterexample :
    (alookup (latestFileSnapshots twoCandLog) "y/n.md" =
      some ⟨"y/n.md", "H", "X", FileHistoryStatus.created, none⟩) ∧
    ¬ "y/n.md" ∈ aliasPaths (latestFileSnapshots twoCandLog) ∧
    alookup oneNewFile "y/n.md" = none ∧
    alookup (latestFileSnapshots twoCandLog) "z/n.md" = none ∧
    alookup oneNewFile "z/n.md" = some ⟨"H", "X"⟩ ∧
    baseName "z/n.md" = baseName "y/n.md" ∧
    (∀ e ∈ capturePass (latestFileSnapshots twoCandLog) oneNewFile,
      e.previousPath ≠ some "y/n.md") ∧
    (∃ e ∈ capturePass (latestFileSnapshots twoCandLog) oneNewFile,
      e.path = "y/n.md" ∧ e.status = FileHistoryStatus.deleted) := by
  decide

/-- C3 (amended): within one pass, the `previousPath` values of the
`moved` rows carrying movement key `k`, in insertion order, form a
prefix of the candidate list for `k` — i.e. candidates are consumed
first-in-first-out in the order they were appended while iterating the
latest-state index.  Because Go map iteration order is unspecified,
this build order need not be the original record order: see the
counterexample. -/
theorem claim_C3_fifo_consumption
    (latestL : List (String × FileHistorySnapshot))
    (current : List (String × FileRecord)) (k : String) :
    ∃ n, (capturePass latestL current).filterMap
        (fun e => if e.status = FileHistoryStatus.moved ∧ movementKey e.hash e.path = k
          then e.previousPath else none) =
      ((initialCandidates (deletionScan latestL current) k).map
        (fun s => s.path)).take n := by
  obtain ⟨n, hn⟩ := reconcileLoop_fifo latestL current
    (initialCandidates (deletionScan latestL current)) (deletionScan latestL current) k
  refine ⟨n, ?_⟩
  rw [capturePass_eq, List.filterMap_append, hn]
  have hdel : (deletedRows (reconcileLoop latestL current
      (initialCandidates (deletionScan latestL current))
      (deletionScan latestL current)).1).filterMap
      (fun e => if e.status = FileHistoryStatus.moved ∧ movementKey e.hash e.path = k
        then e.previousPath else none) = [] := by
    rw [List.filterMap_eq_nil_iff]
    intro e he
    rw [if_neg]
    intro hcond
    rw [deletedRows_status he] at hcond
    cases hcond.1
  rw [hdel, List.append_nil]

/-- C3 counterexample: `reorderedLatest` is a legitimate iteration
order of the latest-state index of `twoCandLog` (a permutation), in
which the later-recorded candidate `y/n.md` (id 2) is consumed by the
new path `z/n.md` while the earliest-recorded candidate `x/n.md`
(id 1) is left to be deleted — FIFO by original record order does not
hold. -/
theorem claim_C3_counterexample :
    IsLatestIndexOf twoCandLog reorderedLatest ∧
    maxIdForPath twoCandLog "x/n.md" = some 1 ∧
    maxIdForPath twoCandLog "y/n.md" = some 2 ∧
    capturePass reorderedLatest oneNewFile =
      [⟨"z/n.md", "H", "X", FileHistoryStatus.moved, some "y/n.md"⟩,
       ⟨"x/n.md", "H", "X", FileHistoryStatus.deleted, none⟩] :=
  ⟨List.reverse_perm _, by decide, by decide, by decide⟩

/-! ## Latest-state index lemmas -/

theorem maxIdForPath_none_iff {log : List FileHistoryEntry} {p : String} :
    maxIdForPath log p = none ↔ ∀ e ∈ log, e.path ≠ p := by
  induction log with
  | nil => simp [maxIdForPath]
  | cons e rest ih =>
    by_cases hp : e.path = p
    · simp [maxIdForPath, hp]
    · simp [maxIdForPath, hp, ih]

theorem maxIdForPath_mem {log : List FileHistoryEntry} {p : String} {m : Nat}
    (h : maxIdForPath log p = some m) : ∃ e ∈ log, e.path = p ∧ e.id = m := by
  induction log generalizing m with
  | nil => simp [maxIdForPath] at h
  | cons e rest ih =>
    by_cases hp : e.path = p
    · rw [maxIdForPath, if_pos hp] at h
      cases hrec : maxIdForPath rest p with
      | none =>
        rw [hrec] at h
        exact ⟨e, List.mem_cons_self _ _, hp, Option.some_inj.mp h⟩
      | some m' =>
        rw [hrec] at h
        have hm : max e.id m' = m := Option.some_inj.mp h
        rcases Nat.le_total e.id m' with hle | hle
        · obtain ⟨e', he', hp', hid'⟩ := ih hrec
          exact ⟨e', List.mem_cons_of_mem _ he', hp',
            by rw [hid', ← hm, Nat.max_eq_right hle]⟩
        · exact ⟨e, List.mem_cons_self _ _, hp,
            by rw [← hm, Nat.max_eq_left hle]⟩
    · rw [maxIdForPath, if_neg hp] at h
      obtain ⟨e', he', hp', hid'⟩ := ih h
      exact ⟨e', List.mem_cons_of_mem _ he', hp', hid'⟩

theorem maxIdForPath_ub {log : List FileHistoryEntry} {p : String} {m : Nat}
    (h : maxIdForPath log p = some m) : ∀ e ∈ log, e.path = p → e.id ≤ m := by
  induction log generalizing m with
  | nil => intro e he; cases he
  | cons e0 rest ih =>
    intro e he hp
    by_cases hp0 : e0.path = p
    · rw [maxIdForPath, if_pos hp0] at h
      cases hrec : maxIdForPath rest p with
      | none =>
        rw [hrec] at h
        have hm : e0.id = m := Option.some_inj.mp h
        rcases List.mem_cons.mp he with rfl | he'
        · exact hm.le
        · exact absurd hp ((maxIdForPath_none_iff.mp hrec) e he')
      | some m' =>
        rw [hrec] at h
        have hm : max e0.id m' = m := Option.some_inj.mp h
        rcases List.mem_cons.mp he with rfl | he'
        · exact hm ▸ Nat.le_max_left _ _
        · exact le_trans (ih hrec e he' hp) (hm ▸ Nat.le_max_right _ _)
    · rw [maxIdForPath, if_neg hp0] at h
      rcases List.mem_cons.mp he with rfl | he'
      · exact absurd hp hp0
      · exact ih h e he' hp

theorem maxIdForPath_of_latestAt {log : List FileHistoryEntry} {p : String}
    {e : FileHistoryEntry} (h : LatestAt log p e) :
    maxIdForPath log p = some e.id := by
  cases hmx : maxIdForPath log p with
  | none => exact absurd h.2.1 ((maxIdForPath_none_iff.mp hmx) e h.1)
  | some m =>
    obtain ⟨e', he', hp', hid'⟩ := maxIdForPath_mem hmx
    have h1 : m ≤ e.id := hid' ▸ h.2.2 e' he' hp'
    have h2 : e.id ≤ m := maxIdForPath_ub hmx e h.1 h.2.1
    rw [Nat.le_antisymm h1 h2]

theorem wf_id_inj {log : List FileHistoryEntry} (wf : WFLog log)
    {e e' : FileHistoryEntry} (he : e ∈ log) (he' : e' ∈ log)
    (hid : e.id = e'.id) : e = e' :=
  List.inj_on_of_nodup_map wf he he' hid

theorem latestRows_mem_iff {log : List FileHistoryEntry} (wf : WFLog log)
    {e : FileHistoryEntry} :
    e ∈ latestRows log ↔ e ∈ log ∧ maxIdForPath log e.path = some e.id := by
  unfold latestRows
  rw [List.mem_filter]
  constructor
  · rintro ⟨hmem, hany⟩
    rw [List.any_eq_true] at hany
    obtain ⟨g, _, hdec⟩ := hany
    rw [decide_eq_true_eq] at hdec
    obtain ⟨e', he', hp', hid'⟩ := maxIdForPath_mem hdec
    have heq : e' = e := wf_id_inj wf he' hmem hid'
    subst heq
    rw [← hp'] at hdec
    exact ⟨hmem, hdec⟩
  · rintro ⟨hmem, hmax⟩
    refine ⟨hmem, ?_⟩
    rw [List.any_eq_true]
    exact ⟨e, hmem, by rw [decide_eq_true_eq]; exact hmax⟩

theorem log_nodup_of_wf {log : List FileHistoryEntry} (wf : WFLog log) : log.Nodup :=
  List.Nodup.of_map _ wf

theorem latestFileSnapshots_keys_nodup {log : List FileHistoryEntry} (wf : WFLog log) :
    ((latestFileSnapshots log).map Prod.fst).Nodup := by
  unfold latestFileSnapshots
  rw [List.map_map]
  have hfn : (Prod.fst ∘ fun e : FileHistoryEntry => (e.path, snapOf e)) =
      fun e : FileHistoryEntry => e.path := rfl
  rw [hfn]
  have hnodup : (latestRows log).Nodup := (log_nodup_of_wf wf).filter _
  refine List.Nodup.map_on ?_ hnodup
  intro x hx y hy hxy
  have hx' := (latestRows_mem_iff wf).mp hx
  have hy' := (latestRows_mem_iff wf).mp hy
  have hsame : maxIdForPath log x.path = some y.id := by
    rw [hxy]
    exact hy'.2
  rw [hx'.2] at hsame
  exact wf_id_inj wf hx'.1 hy'.1 (Option.some_inj.mp hsame)

theorem latest_pair_mem_iff {log : List FileHistoryEntry} (wf : WFLog log)
    {p : String} {s : FileHistorySnapshot} :
    (p, s) ∈ latestFileSnapshots log ↔ ∃ e, LatestAt log p e ∧ snapOf e = s := by
  unfold latestFileSnapshots
  rw [List.mem_map]
  constructor
  · rintro ⟨e, he, heq⟩
    injection heq with h1 h2
    have hrow := (latestRows_mem_iff wf).mp he
    refine ⟨e, ⟨hrow.1, h1, ?_⟩, h2⟩
    intro e' he' hp'
    exact maxIdForPath_ub hrow.2 e' he' (by rw [hp', h1])
  · rintro ⟨e, hlat, hsnap⟩
    refine ⟨e, ?_, ?_⟩
    · refine (latestRows_mem_iff wf).mpr ⟨hlat.1, ?_⟩
      rw [hlat.2.1]
      exact maxIdForPath_of_latestAt hlat
    · rw [hlat.2.1, hsnap]

theorem latest_alookup_char {log : List FileHistoryEntry} (wf : WFLog log)
    {p : String} {s : FileHistorySnapshot} :
    alookup (latestFileSnapshots log) p = some s ↔
      ∃ e, LatestAt log p e ∧ snapOf e = s := by
  constructor
  · intro h
    exact (latest_pair_mem_iff wf).mp (alookup_mem h)
  · intro h
    exact alookup_of_mem_nodup ((latest_pair_mem_iff wf).mpr h)
      (latestFileSnapshots_keys_nodup wf)

theorem latest_alookup_none_iff {log : List FileHistoryEntry} {p : String} :
    alookup (latestFileSnapshots log) p = none ↔ ∀ e ∈ log, e.path ≠ p := by
  rw [alookup_eq_none_iff]
  constructor
  · intro h e he hp
    have hne : maxIdForPath log p ≠ none :=
      fun hn => (maxIdForPath_none_iff.mp hn) e he hp
    cases hmx : maxIdForPath log p with
    | none => exact hne hmx
    | some m =>
      obtain ⟨e', he', hp', hid'⟩ := maxIdForPath_mem hmx
      have hrow : e' ∈ latestRows log := by
        unfold latestRows
        rw [List.mem_filter]
        refine ⟨he', ?_⟩
        rw [List.any_eq_true]
        refine ⟨e', he', ?_⟩
        rw [decide_eq_true_eq, hp', hid']
        exact hmx
      exact (h (e'.path, snapOf e')
        (List.mem_map_of_mem (fun e => (e.path, snapOf e)) hrow)) hp'
  · intro h ps hps hkey
    obtain ⟨e, he, heq⟩ := List.mem_map.mp hps
    have he' : e ∈ log := (List.mem_filter.mp he).1
    rw [← heq] at hkey
    exact h e he' hkey

theorem latest_pair_path {log : List FileHistoryEntry}
    {ps : String × FileHistorySnapshot} (hps : ps ∈ latestFileSnapshots log) :
    ps.2.path = ps.1 := by
  obtain ⟨e, _, heq⟩ := List.mem_map.mp hps
  rw [← heq]
  rfl

/-- C6: `latestFileSnapshots` has exactly the paths occurring in the
log as keys, and maps each such path to the selected columns of that
path's row of maximal id. -/
theorem claim_C6_latest_snapshots (log : List FileHistoryEntry) (wf : WFLog log) :
    (∀ p, (∃ s, alookup (latestFileSnapshots log) p = some s) ↔
      p ∈ log.map (fun e => e.path)) ∧
    (∀ p s, alookup (latestFileSnapshots log) p = some s →
      ∃ e ∈ log, e.path = p ∧ snapOf e = s ∧
        ∀ e' ∈ log, e'.path = p → e'.id ≤ e.id) := by
  constructor
  · intro p
    constructor
    · rintro ⟨s, hs⟩
      obtain ⟨e, hlat, _⟩ := (latest_alookup_char wf).mp hs
      exact hlat.2.1 ▸ List.mem_map_of_mem _ hlat.1
    · intro hp
      obtain ⟨e, he, hpath⟩ := List.mem_map.mp hp
      cases hs : alookup (latestFileSnapshots log) p with
      | none => exact absurd hpath ((latest_alookup_none_iff.mp hs) e he)
      | some s => exact ⟨s, rfl⟩
  · intro p s hs
    obtain ⟨e, hlat, hsnap⟩ := (latest_alookup_char wf).mp hs
    exact ⟨e, hlat.1, hlat.2.1, hsnap, hlat.2.2⟩

/-- Witness for C6 at a concrete input: the demo log is well-formed
and its latest index satisfies the characterization. -/
theorem claim_C6_witness :
    WFLog demoLog ∧
    ((∀ p, (∃ s, alookup (latestFileSnapshots demoLog) p = some s) ↔
      p ∈ demoLog.map (fun e => e.path)) ∧
    (∀ p s, alookup (latestFileSnapshots demoLog) p = some s →
      ∃ e ∈ demoLog, e.path = p ∧ snapOf e = s ∧
        ∀ e' ∈ demoLog, e'.path = p → e'.id ≤ e.id)) :=
  ⟨by decide, claim_C6_latest_snapshots demoLog (by decide)⟩

/-- C8: `scanMarkdownFiles` on a missing root directory returns an
empty mapping and no error (the walk callback swallows the stat
error), so `CaptureFileHistory` on a missing root does not fail: it
runs the pass against an empty snapshot. -/
theorem claim_C8_missing_root :
    scanMarkdownFiles RootDir.missing = Except.ok [] ∧
    ∀ (log : List FileHistoryEntry) (latestL : List (String × FileHistorySnapshot))
      (ts : Nat),
      captureFileHistory RootDir.missing log latestL ts =
        Except.ok (captureStep log latestL [] ts) := by
  exact ⟨rfl, fun log latestL ts => rfl⟩

/-! ## Store-append lemmas -/

theorem le_foldr_max {l : List Nat} {a : Nat} (ha : a ∈ l) : a ≤ l.foldr max 0 := by
  induction l with
  | nil => cases ha
  | cons hd tl ih =>
    rcases List.mem_cons.mp ha with rfl | ha'
    · exact Nat.le_max_left _ _
    · exact le_trans (ih ha') (Nat.le_max_right _ _)

theorem nextId_gt {log : List FileHistoryEntry} {e : FileHistoryEntry}
    (he : e ∈ log) : e.id < nextId log := by
  unfold nextId
  exact Nat.lt_succ_of_le (le_foldr_max (List.mem_map_of_mem _ he))

theorem assignFrom_mem_char {l : List PendingEntry} {n ts : Nat}
    {e : FileHistoryEntry} (he : e ∈ assignFrom n ts l) :
    ∃ w ∈ l, e.path = w.path ∧ e.hash = w.hash ∧ e.content = w.content ∧
      e.status = w.status ∧ e.previousPath = w.previousPath ∧ n ≤ e.id := by
  induction l generalizing n with
  | nil => cases he
  | cons w rest ih =>
    rcases List.mem_cons.mp he with rfl | he'
    · exact ⟨w, List.mem_cons_self _ _, rfl, rfl, rfl, rfl, rfl, Nat.le_refl _⟩
    · obtain ⟨w', hw', h1, h2, h3, h4, h5, h6⟩ := ih he'
      exact ⟨w', List.mem_cons_of_mem _ hw', h1, h2, h3, h4, h5,
        le_trans (Nat.le_succ _) h6⟩

theorem assignFrom_surj {l : List PendingEntry} (n ts : Nat)
    {w : PendingEntry} (hw : w ∈ l) :
    ∃ e ∈ assignFrom n ts l, e.path = w.path ∧ e.hash = w.hash ∧
      e.content = w.content ∧ e.status = w.status ∧
      e.previousPath = w.previousPath ∧ n ≤ e.id := by
  induction l generalizing n with
  | nil => cases hw
  | cons w0 rest ih =>
    rcases List.mem_cons.mp hw with rfl | hw'
    · exact ⟨⟨n, w.path, w.hash, w.content, w.status, w.previousPath, ts⟩,
        List.mem_cons_self _ _, rfl, rfl, rfl, rfl, rfl, Nat.le_refl _⟩
    · obtain ⟨e, he, h1, h2, h3, h4, h5, h6⟩ := ih (n + 1) hw'
      exact ⟨e, List.mem_cons_of_mem _ he, h1, h2, h3, h4, h5,
        le_trans (Nat.le_succ _) h6⟩

theorem assignFrom_ids_nodup (l : List PendingEntry) (ts : Nat) :
    ∀ n, ((assignFrom n ts l).map (fun e => e.id)).Nodup := by
  induction l with
  | nil => intro n; simp [assignFrom]
  | cons w rest ih =>
    intro n
    simp only [assignFrom, List.map_cons, List.nodup_cons]
    refine ⟨?_, ih (n + 1)⟩
    intro hmem
    obtain ⟨e, he, hid⟩ := List.mem_map.mp hmem
    obtain ⟨_, _, _, _, _, _, _, hge⟩ := assignFrom_mem_char he
    omega

theorem wf_captureStep {log : List FileHistoryEntry} (wf : WFLog log)
    (pend : List PendingEntry) (ts : Nat) :
    WFLog (log ++ assignFrom (nextId log) ts pend) := by
  unfold WFLog
  rw [List.map_append]
  refine List.Nodup.append wf (assignFrom_ids_nodup pend ts (nextId log)) ?_
  intro a ha hb
  obtain ⟨e, he, hid⟩ := List.mem_map.mp ha
  obtain ⟨e', he', hid'⟩ := List.mem_map.mp hb
  obtain ⟨_, _, _, _, _, _, _, hge⟩ := assignFrom_mem_char he'
  have := nextId_gt he
  omega

theorem assignFrom_filter_nil {l : List PendingEntry} {p : String} (n ts : Nat)
    (h : l.filter (fun w => decide (w.path = p)) = []) :
    (assignFrom n ts l).filter (fun e => decide (e.path = p)) = [] := by
  rw [List.filter_eq_nil_iff] at h ⊢
  intro e he
  obtain ⟨w, hw, h1, _⟩ := assignFrom_mem_char he
  simp only [decide_eq_true_eq] at h ⊢
  rw [h1]
  exact h w hw

theorem assignFrom_filter_singleton {l : List PendingEntry} {p : String}
    {w : PendingEntry} (ts : Nat)
    (h : l.filter (fun w => decide (w.path = p)) = [w]) :
    ∀ n, ∃ e, (assignFrom n ts l).filter (fun e => decide (e.path = p)) = [e] ∧
      e.path = w.path ∧ e.hash = w.hash ∧ e.content = w.content ∧
      e.status = w.status ∧ e.previousPath = w.previousPath ∧
      e ∈ assignFrom n ts l := by
  induction l with
  | nil => cases h
  | cons w0 rest ih =>
    intro n
    by_cases hp : w0.path = p
    · rw [List.filter_cons, if_pos (by simp [hp])] at h
      injection h with hw0 hrest
      subst hw0
      refine ⟨⟨n, w0.path, w0.hash, w0.content, w0.status, w0.previousPath, ts⟩, ?_,
        rfl, rfl, rfl, rfl, rfl, List.mem_cons_self _ _⟩
      simp only [assignFrom, List.filter_cons]
      rw [if_pos (by simp [hp]), assignFrom_filter_nil (n + 1) ts hrest]
    · rw [List.filter_cons, if_neg (by simp [hp])] at h
      obtain ⟨e, he, h1, h2, h3, h4, h5, h6⟩ := ih h (n + 1)
      refine ⟨e, ?_, h1, h2, h3, h4, h5, List.mem_cons_of_mem _ h6⟩
      simp only [assignFrom, List.filter_cons]
      rw [if_neg (by simp [hp]), he]

theorem latest_append_nil {log news : List FileHistoryEntry} {p : String}
    (wf : WFLog log) (wf' : WFLog (log ++ news))
    (hnil : ∀ e' ∈ news, e'.path ≠ p) :
    alookup (latestFileSnapshots (log ++ news)) p =
      alookup (latestFileSnapshots log) p := by
  cases h : alookup (latestFileSnapshots log) p with
  | none =>
    rw [latest_alookup_none_iff] at h ⊢
    intro e he
    rcases List.mem_append.mp he with hl | hr
    · exact h e hl
    · exact hnil e hr
  | some s =>
    obtain ⟨e, hlat, hsnap⟩ := (latest_alookup_char wf).mp h
    refine (latest_alookup_char wf').mpr ⟨e, ⟨?_, hlat.2.1, ?_⟩, hsnap⟩
    · exact List.mem_append_left _ hlat.1
    · intro e' he' hp'
      rcases List.mem_append.mp he' with hl | hr
      · exact hlat.2.2 e' hl hp'
      · exact absurd hp' (hnil e' hr)

theorem latest_append_single {log : List FileHistoryEntry}
    (news : List FileHistoryEntry) {p : String}
    {enew : FileHistoryEntry} (wf' : WFLog (log ++ news))
    (hfl : news.filter (fun e => decide (e.path = p)) = [enew])
    (hid : ∀ a ∈ log, ∀ b ∈ news, a.id < b.id) :
    alookup (latestFileSnapshots (log ++ news)) p = some (snapOf enew) := by
  have hmemf : enew ∈ news.filter (fun e => decide (e.path = p)) := by
    rw [hfl]
    exact List.mem_cons_self _ _
  have hmem : enew ∈ news := List.mem_of_mem_filter hmemf
  have hpath : enew.path = p := by
    have := List.of_mem_filter hmemf
    simpa using this
  refine (latest_alookup_char wf').mpr ⟨enew, ⟨List.mem_append_right _ hmem, hpath, ?_⟩, rfl⟩
  intro e' he' hp'
  rcases List.mem_append.mp he' with hl | hr
  · exact le_of_lt (hid e' hl enew hmem)
  · have : e' ∈ news.filter (fun e => decide (e.path = p)) :=
      List.mem_filter.mpr ⟨hr, by simp [hp']⟩
    rw [hfl] at this
    have : e' = enew := by simpa using this
    rw [this]

theorem ids_lt_assignFrom {log : List FileHistoryEntry} {pend : List PendingEntry}
    {ts : Nat} :
    ∀ a ∈ log, ∀ b ∈ assignFrom (nextId log) ts pend, a.id < b.id := by
  intro a ha b hb
  obtain ⟨_, _, _, _, _, _, _, hge⟩ := assignFrom_mem_char hb
  have := nextId_gt ha
  omega

theorem capturePass_filter_deleted (latestL : List (String × FileHistorySnapshot))
    {current : List (String × FileRecord)} {p : String}
    (hp : alookup current p = none) :
    ∀ w ∈ (capturePass latestL current).filter (fun w => decide (w.path = p)),
      w.status = FileHistoryStatus.deleted := by
  intro w hw
  rw [capturePass_eq] at hw
  have hw' := List.mem_filter.mp hw
  rcases List.mem_append.mp hw'.1 with hl | hr
  · have hnil := reconcileLoop_out_filter_nil latestL (not_mem_keys_of_alookup_none hp)
      (initialCandidates (deletionScan latestL current)) (deletionScan latestL current)
    have hmem : w ∈ (reconcileLoop latestL current
        (initialCandidates (deletionScan latestL current))
        (deletionScan latestL current)).2.filter (fun e => decide (e.path = p)) :=
      List.mem_filter.mpr ⟨hl, hw'.2⟩
    rw [hnil] at hmem
    cases hmem
  · exact deletedRows_status hr

/-- C2 (amended): running `CaptureFileHistory` twice in a row with no
filesystem change between the two runs appends zero rows on the second
run, *provided* every alias path of the latest-state index before the
first run is still an alias path afterwards.  The proviso is necessary
(see the counterexample): a pass that overwrites the latest entry of a
move target records a null `previous_path`, unshielding the move
source, which the next pass then newly reports as deleted. -/
theorem claim_C2_idempotence_amended
    (log : List FileHistoryEntry) (wf : WFLog log)
    (cur1 cur2 : List (String × FileRecord))
    (hcperm : cur1.Perm cur2) (hndC : (cur1.map Prod.fst).Nodup)
    (L1 L2 : List (String × FileHistorySnapshot)) (ts ts2 : Nat)
    (hL1 : IsLatestIndexOf log L1)
    (hL2 : IsLatestIndexOf (captureStep log L1 cur1 ts) L2)
    (halias : ∀ p ∈ aliasPaths L1, p ∈ aliasPaths L2) :
    capturePass L2 cur2 = [] ∧
    captureStep (captureStep log L1 cur1 ts) L2 cur2 ts2 =
      captureStep log L1 cur1 ts := by
  have wf' : WFLog (captureStep log L1 cur1 ts) :=
    wf_captureStep wf (capturePass L1 cur1) ts
  have hndL1 : (L1.map Prod.fst).Nodup :=
    ((hL1.map Prod.fst).nodup_iff).mpr (latestFileSnapshots_keys_nodup wf)
  have hndL2 : (L2.map Prod.fst).Nodup :=
    ((hL2.map Prod.fst).nodup_iff).mpr (latestFileSnapshots_keys_nodup wf')
  have hndC2 : (cur2.map Prod.fst).Nodup :=
    ((hcperm.map Prod.fst).nodup_iff).mp hndC
  have hlookL1 : ∀ k, alookup L1 k = alookup (latestFileSnapshots log) k :=
    alookup_perm hL1 hndL1
  have hlookL2 : ∀ k, alookup L2 k =
      alookup (latestFileSnapshots (captureStep log L1 cur1 ts)) k :=
    alookup_perm hL2 hndL2
  have hlookC : ∀ k, alookup cur1 k = alookup cur2 k :=
    alookup_perm hcperm hndC
  -- Shorthand for the first pass's state.
  have hstep : captureStep log L1 cur1 ts =
      log ++ assignFrom (nextId log) ts (capturePass L1 cur1) := rfl
  -- (i) every current path is silent against the post-pass index
  have hsilent : ∀ x fx, (x, fx) ∈ cur2 → ∃ snap, alookup L2 x = some snap ∧
      snap.status ≠ FileHistoryStatus.deleted ∧ snap.hash = fx.hash := by
    intro x fx hx2
    have hx1 : (x, fx) ∈ cur1 := hcperm.mem_iff.mpr hx2
    rcases reconcileLoop_at_current L1 hx1 hndC
        (initialCandidates (deletionScan L1 cur1)) (deletionScan L1 cur1) with
      ⟨st, prev, hst, hflt⟩ | ⟨hflt, snap, hlx, hsnst, hsnh⟩
    · have hpend : (capturePass L1 cur1).filter (fun w => decide (w.path = x)) =
          [⟨x, fx.hash, fx.content, st, prev⟩] := by
        rw [capturePass_eq, List.filter_append, hflt,
          deletedRows_filter_nil L1 hx1]
        simp
      obtain ⟨enew, heflt, hp1, hp2, hp3, hp4, hp5, _⟩ :=
        assignFrom_filter_singleton ts hpend (nextId log)
      have hlat := latest_append_single (assignFrom (nextId log) ts
        (capturePass L1 cur1)) wf' heflt ids_lt_assignFrom
      refine ⟨snapOf enew, ?_, ?_, ?_⟩
      · rw [hlookL2 x, hstep]
        exact hlat
      · show enew.status ≠ FileHistoryStatus.deleted
        rw [hp4]
        exact hst
      · show enew.hash = fx.hash
        rw [hp2]
    · have hpend : (capturePass L1 cur1).filter (fun w => decide (w.path = x)) = [] := by
        rw [capturePass_eq, List.filter_append, hflt,
          deletedRows_filter_nil L1 hx1]
        rfl
      have hnil : ∀ e' ∈ assignFrom (nextId log) ts (capturePass L1 cur1),
          e'.path ≠ x := by
        have h0 := assignFrom_filter_nil (nextId log) ts hpend
        rw [List.filter_eq_nil_iff] at h0
        intro e' he'
        have := h0 e' he'
        simpa using this
      refine ⟨snap, ?_, hsnst, hsnh⟩
      rw [hlookL2 x, hstep, latest_append_nil wf wf' hnil, ← hlookL1 x]
      exact hlx
  -- (ii) every pending deletion against the post-pass index is already deleted
  have hdeleted : ∀ ps ∈ deletionScan L2 cur2, ps.2.status = FileHistoryStatus.deleted := by
    rintro ⟨p, s⟩ hps
    obtain ⟨hmemL2, hnal2, hcur2none⟩ := deletionScan_mem.mp hps
    have hlook2p : alookup L2 p = some s := alookup_of_mem_nodup hmemL2 hndL2
    have hlatest' : alookup (latestFileSnapshots (captureStep log L1 cur1 ts)) p =
        some s := by
      rw [← hlookL2]
      exact hlook2p
    have hcur1none : alookup cur1 p = none := by
      rw [hlookC]
      exact hcur2none
    show s.status = FileHistoryStatus.deleted
    by_cases hfp : (capturePass L1 cur1).filter (fun w => decide (w.path = p)) = []
    · -- no new row at p: the old latest entry survives
      have hnil : ∀ e' ∈ assignFrom (nextId log) ts (capturePass L1 cur1),
          e'.path ≠ p := by
        have h0 := assignFrom_filter_nil (nextId log) ts hfp
        rw [List.filter_eq_nil_iff] at h0
        intro e' he'
        have := h0 e' he'
        simpa using this
      have hold : alookup L1 p = some s := by
        rw [hlookL1]
        rw [hstep, latest_append_nil wf wf' hnil] at hlatest'
        exact hlatest'
      by_contra hsd
      have hmemL1 : (p, s) ∈ L1 := alookup_mem hold
      have hnal1 : ¬ p ∈ aliasPaths L1 := fun h => hnal2 (halias p h)
      have hscan1 : (p, s) ∈ deletionScan L1 cur1 :=
        deletionScan_mem.mpr ⟨hmemL1, hnal1, hcur1none⟩
      rcases reconcileLoop_missing_fate L1 cur1
          (initialCandidates (deletionScan L1 cur1)) (deletionScan L1 cur1)
          p s hscan1 with hleft | ⟨emoved, hemem, hmst, hmprev⟩
      · -- p still missing at the end: a deleted row for p was appended
        obtain ⟨ps', hps', hfst⟩ := List.mem_map.mp hleft
        have hps'scan : ps' ∈ deletionScan L1 cur1 :=
          (reconcileLoop_missing_sublist L1 cur1 _ _).subset hps'
        have hps'L1 : ps' ∈ L1 := (deletionScan_mem.mp hps'scan).1
        have hs' : ps'.2 = s := by
          have hpair : (p, ps'.2) ∈ L1 := by
            have : ps' = (ps'.1, ps'.2) := rfl
            rw [this, hfst] at hps'L1
            exact hps'L1
          exact mem_unique_of_nodup_keys hpair hmemL1 hndL1
        have hdelrow : (⟨ps'.1, ps'.2.hash, ps'.2.content,
            FileHistoryStatus.deleted, none⟩ : PendingEntry) ∈
            deletedRows (reconcileLoop L1 cur1
              (initialCandidates (deletionScan L1 cur1)) (deletionScan L1 cur1)).1 := by
          unfold deletedRows
          refine List.mem_filterMap.mpr ⟨ps', hps', ?_⟩
          rw [if_neg (by rw [hs']; exact hsd)]
        have hrowpass : (⟨ps'.1, ps'.2.hash, ps'.2.content,
            FileHistoryStatus.deleted, none⟩ : PendingEntry) ∈ capturePass L1 cur1 := by
          rw [capturePass_eq]
          exact List.mem_append_right _ hdelrow
        have : (⟨ps'.1, ps'.2.hash, ps'.2.content,
            FileHistoryStatus.deleted, none⟩ : PendingEntry) ∈
            (capturePass L1 cur1).filter (fun w => decide (w.path = p)) :=
          List.mem_filter.mpr ⟨hrowpass, by simp [hfst]⟩
        rw [hfp] at this
        cases this
      · -- p was consumed as a move source: its target shields it in L2
        obtain ⟨x, fx, hxcur, hpatheq, hhashq, hcontq, _⟩ :=
          reconcileLoop_out_char L1 cur1 _ _ emoved hemem
        rcases reconcileLoop_at_current L1 hxcur hndC
            (initialCandidates (deletionScan L1 cur1)) (deletionScan L1 cur1) with
          ⟨st, prev, _, hflt0⟩ | ⟨hflt0, _⟩
        · have hmvf : emoved ∈ (reconcileLoop L1 cur1
              (initialCandidates (deletionScan L1 cur1))
              (deletionScan L1 cur1)).2.filter (fun e => decide (e.path = x)) :=
            List.mem_filter.mpr ⟨hemem, by simp [hpatheq]⟩
          rw [hflt0] at hmvf
          have hmeq : emoved = ⟨x, fx.hash, fx.content, st, prev⟩ := by
            simpa using hmvf
          have hprev : prev = some p := by
            rw [hmeq] at hmprev
            exact hmprev
          have hpend : (capturePass L1 cur1).filter (fun w => decide (w.path = x)) =
              [⟨x, fx.hash, fx.content, st, prev⟩] := by
            rw [capturePass_eq, List.filter_append, hflt0,
              deletedRows_filter_nil L1 hxcur]
            simp
          obtain ⟨enew, heflt, hp1, hp2, hp3, hp4, hp5, _⟩ :=
            assignFrom_filter_singleton ts hpend (nextId log)
          have hlat := latest_append_single (assignFrom (nextId log) ts
            (capturePass L1 cur1)) wf' heflt ids_lt_assignFrom
          have hxL2 : alookup L2 x = some (snapOf enew) := by
            rw [hlookL2 x, hstep]
            exact hlat
          have hxmem : (x, snapOf enew) ∈ L2 := alookup_mem hxL2
          have : p ∈ aliasPaths L2 := by
            unfold aliasPaths
            refine List.mem_filterMap.mpr ⟨(x, snapOf enew), hxmem, ?_⟩
            show enew.previousPath = some p
            rw [hp5, hprev]
          exact absurd this hnal2
        · have hmvf : emoved ∈ (reconcileLoop L1 cur1
              (initialCandidates (deletionScan L1 cur1))
              (deletionScan L1 cur1)).2.filter (fun e => decide (e.path = x)) :=
            List.mem_filter.mpr ⟨hemem, by simp [hpatheq]⟩
          rw [hflt0] at hmvf
          cases hmvf
    · -- a new row was written at p: it must be a deleted row
      obtain ⟨e, hlat, hsnap⟩ := (latest_alookup_char wf').mp hlatest'
      rw [hstep] at hlat
      rcases List.mem_append.mp hlat.1 with hel | hen
      · -- the winner cannot live in the old log: a newer row at p exists
        obtain ⟨w, hwf0⟩ := List.exists_mem_of_ne_nil _ hfp
        have hw := List.mem_filter.mp hwf0
        have hwp : w.path = p := by simpa using hw.2
        obtain ⟨enew, henew, hq1, _, _, _, _, _⟩ :=
          assignFrom_surj (nextId log) ts hw.1
        have hlt := nextId_gt hel
        have hle : enew.id ≤ e.id :=
          hlat.2.2 enew (List.mem_append_right _ henew) (by rw [hq1, hwp])
        obtain ⟨_, _, _, _, _, _, _, hge⟩ := assignFrom_mem_char henew
        omega
      · obtain ⟨w, hwmem, hq1, _, _, hq4, _, _⟩ := assignFrom_mem_char hen
        have hwfilter : w ∈ (capturePass L1 cur1).filter
            (fun w => decide (w.path = p)) := by
          refine List.mem_filter.mpr ⟨hwmem, ?_⟩
          simp only [decide_eq_true_eq]
          rw [← hq1]
          exact hlat.2.1
        have hwdel := capturePass_filter_deleted L1 hcur1none w hwfilter
        have : e.status = FileHistoryStatus.deleted := by
          rw [hq4, hwdel]
        rw [← hsnap]
        exact this
  -- assemble: the second pass appends nothing
  have hloop2 := reconcileLoop_all_silent L2 hsilent
    (initialCandidates (deletionScan L2 cur2)) (deletionScan L2 cur2)
  have hpass2 : capturePass L2 cur2 = [] := by
    rw [capturePass_eq, hloop2]
    simp only [List.nil_append]
    unfold deletedRows
    rw [List.filterMap_eq_nil_iff]
    intro ps hps
    rw [if_pos (hdeleted ps hps)]
  refine ⟨hpass2, ?_⟩
  show captureStep log L1 cur1 ts ++
      assignFrom (nextId (captureStep log L1 cur1 ts)) ts2 (capturePass L2 cur2) =
    captureStep log L1 cur1 ts
  rw [hpass2]
  simp [assignFrom]

/-- Witness for C2 at a concrete input: a first pass that creates
`a.md` is followed by a second pass over the unchanged snapshot, which
appends nothing (the alias-preservation proviso holds trivially: there
are no recorded moves). -/
theorem claim_C2_witness :
    capturePass
      (latestFileSnapshots (captureStep []
        (latestFileSnapshots ([] : List FileHistoryEntry)) [("a.md", ⟨"H", "X"⟩)] 5))
      [("a.md", ⟨"H", "X"⟩)] = [] ∧
    captureStep
      (captureStep [] (latestFileSnapshots ([] : List FileHistoryEntry))
        [("a.md", ⟨"H", "X"⟩)] 5)
      (latestFileSnapshots (captureStep []
        (latestFileSnapshots ([] : List FileHistoryEntry)) [("a.md", ⟨"H", "X"⟩)] 5))
      [("a.md", ⟨"H", "X"⟩)] 6 =
    captureStep [] (latestFileSnapshots ([] : List FileHistoryEntry))
      [("a.md", ⟨"H", "X"⟩)] 5 :=
  claim_C2_idempotence_amended [] (by decide)
    [("a.md", ⟨"H", "X"⟩)] [("a.md", ⟨"H", "X"⟩)]
    (List.Perm.refl _) (by decide)
    (latestFileSnapshots [])
    (latestFileSnapshots (captureStep []
      (latestFileSnapshots ([] : List FileHistoryEntry)) [("a.md", ⟨"H", "X"⟩)] 5))
    5 6 (List.Perm.refl _) (List.Perm.refl _) (by decide)

/-- C2 counterexample: starting from a log that records `a.md` created
and then moved to `b/a.md`, with the file since removed from disk,
the first pass over the (empty, unchanged) snapshot appends a
`deleted` row for `b/a.md` with null `previous_path`; that row
unshields the move source, and the second pass over the *same* empty
snapshot appends one more row — `deleted` for `a.md` — refuting the
claim that a second run with no filesystem change appends zero
entries. -/
theorem claim_C2_counterexample :
    WFLog moveChainLog ∧
    capturePass (latestFileSnapshots moveChainLog) [] =
      [⟨"b/a.md", "H", "X", FileHistoryStatus.deleted, none⟩] ∧
    capturePass (latestFileSnapshots (captureStep moveChainLog
        (latestFileSnapshots moveChainLog) [] 3)) [] =
      [⟨"a.md", "H", "X", FileHistoryStatus.deleted, none⟩] := by
  decide

/-! ## History-resolver lemmas -/

/-- C4: `GetHistoryForPath` returns the collected rows sorted by
recorded time descending, breaking ties by id descending; for the
create / modify / move / delete fixture, querying `b/a.md` returns
exactly four rows in the order deleted, moved, modified, created. -/
theorem claim_C4_history_order :
    (∀ (log : List FileHistoryEntry) (p : String),
      List.Sorted histLe (getHistoryForPath log p) ∧
      (getHistoryForPath log p).Perm
        (collectRows log (historyFuel log) (seedHistoryPaths p) [] [])) ∧
    getHistoryForPath demoLog "b/a.md" =
      [⟨4, "b/a.md", "h-two", "two", FileHistoryStatus.deleted, none, 4⟩,
       ⟨3, "b/a.md", "h-two", "two", FileHistoryStatus.moved, some "a.md", 3⟩,
       ⟨2, "a.md", "h-two", "two", FileHistoryStatus.modified, none, 2⟩,
       ⟨1, "a.md", "h-one", "one", FileHistoryStatus.created, none, 1⟩] := by
  refine ⟨fun log p => ⟨List.sorted_insertionSort histLe _,
    List.perm_insertionSort histLe _⟩, ?_⟩
  decide

theorem dropWhile_head_false {α : Type} (pr : α → Bool) :
    ∀ {l : List α} {c : α} {t : List α}, l.dropWhile pr = c :: t → pr c = false := by
  intro l
  induction l with
  | nil => intro c t h; cases h
  | cons a l' ih =>
    intro c t h
    rw [List.dropWhile_cons] at h
    by_cases ha : pr a = true
    · rw [if_pos ha] at h
      exact ih h
    · rw [if_neg ha] at h
      injection h with h1 _
      subst h1
      exact Bool.eq_false_iff.mpr ha

theorem dropWhile_append_ne_nil {α : Type} (pr : α → Bool) :
    ∀ (l1 l2 : List α), l1.dropWhile pr ≠ [] →
      (l1 ++ l2).dropWhile pr = l1.dropWhile pr ++ l2 := by
  intro l1
  induction l1 with
  | nil => intro l2 h; exact absurd rfl h
  | cons a t ih =>
    intro l2 h
    rw [List.dropWhile_cons] at h
    by_cases ha : pr a = true
    · rw [if_pos ha] at h
      rw [List.cons_append, List.dropWhile_cons, if_pos ha, List.dropWhile_cons, if_pos ha]
      exact ih l2 h
    · rw [List.cons_append, List.dropWhile_cons, if_neg ha, List.dropWhile_cons, if_neg ha,
        List.cons_append]

theorem dropWhile_append_nil {α : Type} (pr : α → Bool) :
    ∀ (l1 l2 : List α), l1.dropWhile pr = [] →
      (l1 ++ l2).dropWhile pr = l2.dropWhile pr := by
  intro l1
  induction l1 with
  | nil => intro l2 _; rfl
  | cons a t ih =>
    intro l2 h
    rw [List.dropWhile_cons] at h
    by_cases ha : pr a = true
    · rw [if_pos ha] at h
      rw [List.cons_append, List.dropWhile_cons, if_pos ha]
      exact ih l2 h
    · rw [if_neg ha] at h
      cases h

theorem dropWhile_idem {α : Type} (pr : α → Bool) (l : List α) :
    (l.dropWhile pr).dropWhile pr = l.dropWhile pr := by
  cases h : l.dropWhile pr with
  | nil => rfl
  | cons c t =>
    rw [List.dropWhile_cons, if_neg]
    rw [dropWhile_head_false pr h]
    intro hc
    cases hc

theorem trimSpaceList_space_left (l : List Char) :
    trimSpaceList (' ' :: l) = trimSpaceList l := by
  unfold trimSpaceList
  rw [List.dropWhile_cons, if_pos (by decide)]

theorem trimSpaceList_space_right (l : List Char) :
    trimSpaceList (l ++ [' ']) = trimSpaceList l := by
  unfold trimSpaceList
  by_cases h : l.dropWhile isSpaceChar = []
  · rw [h, dropWhile_append_nil isSpaceChar l [' '] h]
    rfl
  · rw [dropWhile_append_ne_nil isSpaceChar l [' '] h, List.reverse_append]
    rw [show ([' '] : List Char).reverse = [' '] from rfl, List.singleton_append,
      List.dropWhile_cons, if_pos (by decide)]

theorem take_drop_split {α : Type} (pr : α → Bool) :
    ∀ l : List α, l.takeWhile pr ++ l.dropWhile pr = l := by
  intro l
  induction l with
  | nil => rfl
  | cons a t ih =>
    rw [List.takeWhile_cons, List.dropWhile_cons]
    by_cases ha : pr a = true
    · rw [if_pos ha, if_pos ha, List.cons_append, ih]
    · rw [if_neg ha, if_neg ha, List.nil_append]

theorem trimSpaceList_reverse_head {l : List Char} {c : Char} {t : List Char}
    (h : (trimSpaceList l).reverse = c :: t) : isSpaceChar c = false := by
  unfold trimSpaceList at h
  rw [List.reverse_reverse] at h
  exact dropWhile_head_false isSpaceChar h

theorem normalizeHistoryPath_data (s : String) :
    (normalizeHistoryPath s).data =
      (trimSpaceList s.data).dropWhile (fun c => decide (c = '/')) := rfl

theorem normalizeHistoryPath_space_left (p : String) :
    normalizeHistoryPath (" " ++ p) = normalizeHistoryPath p := by
  apply String.ext
  rw [normalizeHistoryPath_data, normalizeHistoryPath_data]
  have hd : (" " ++ p).data = ' ' :: p.data := by
    rw [String.data_append]
    rfl
  rw [hd, trimSpaceList_space_left]

theorem normalizeHistoryPath_space_right (p : String) :
    normalizeHistoryPath (p ++ " ") = normalizeHistoryPath p := by
  apply String.ext
  rw [normalizeHistoryPath_data, normalizeHistoryPath_data]
  have hd : (p ++ " ").data = p.data ++ [' '] := by
    rw [String.data_append]
  rw [hd, trimSpaceList_space_right]

theorem normalizeHistoryPath_slash (p : String) :
    normalizeHistoryPath ("/" ++ normalizeHistoryPath p) = normalizeHistoryPath p := by
  have hd : ("/" ++ normalizeHistoryPath p).data = '/' :: (normalizeHistoryPath p).data := by
    rw [String.data_append]
    rfl
  have hA : trimSpaceList ('/' :: (normalizeHistoryPath p).data) =
      '/' :: (normalizeHistoryPath p).data := by
    unfold trimSpaceList
    rw [List.dropWhile_cons, if_neg (by decide), List.reverse_cons]
    cases hnr : (normalizeHistoryPath p).data.reverse with
    | nil =>
      rw [List.nil_append, List.dropWhile_cons, if_neg (by decide)]
      have h0 : (normalizeHistoryPath p).data = [] := by
        rw [← List.reverse_reverse (normalizeHistoryPath p).data, hnr]
        rfl
      rw [h0]
      rfl
    | cons c t =>
      have hc : isSpaceChar c = false := by
        have hsplit : (trimSpaceList p.data).takeWhile (fun c => decide (c = '/')) ++
            (normalizeHistoryPath p).data = trimSpaceList p.data := by
          rw [normalizeHistoryPath_data p]
          exact take_drop_split _ _
        have hrev : (trimSpaceList p.data).reverse = c :: (t ++
            ((trimSpaceList p.data).takeWhile (fun c => decide (c = '/'))).reverse) := by
          conv_lhs => rw [← hsplit]
          rw [List.reverse_append, hnr, List.cons_append]
        exact trimSpaceList_reverse_head hrev
      change (List.dropWhile isSpaceChar (c :: (t ++ ['/']))).reverse =
        '/' :: (normalizeHistoryPath p).data
      rw [List.dropWhile_cons, if_neg (by simp [hc])]
      rw [show c :: (t ++ ['/']) = (c :: t) ++ ['/'] from rfl, List.reverse_append, ← hnr,
        List.reverse_reverse]
      rfl
  have hB : ('/' :: (normalizeHistoryPath p).data).dropWhile (fun c => decide (c = '/')) =
      (normalizeHistoryPath p).data := by
    rw [List.dropWhile_cons, if_pos (by decide), normalizeHistoryPath_data p]
    exact dropWhile_idem _ _
  apply String.ext
  rw [normalizeHistoryPath_data, hd, hA, hB]

theorem mem_uniqueNonEmpty {a : String} :
    ∀ (seen l : List String), a ∈ l → a ≠ "" →
      a ∈ seen ∨ a ∈ uniqueNonEmpty seen l := by
  intro seen l
  induction l generalizing seen with
  | nil => intro h; cases h
  | cons c rest ih =>
    intro hmem hne
    by_cases hc : c = "" ∨ c ∈ seen
    · have hu : uniqueNonEmpty seen (c :: rest) = uniqueNonEmpty seen rest := by
        rw [uniqueNonEmpty, if_pos hc]
      rcases List.mem_cons.mp hmem with rfl | hmem'
      · rcases hc with h1 | h2
        · exact absurd h1 hne
        · exact Or.inl h2
      · rw [hu]
        exact ih seen hmem' hne
    · have hu : uniqueNonEmpty seen (c :: rest) =
          c :: uniqueNonEmpty (c :: seen) rest := by
        rw [uniqueNonEmpty, if_neg hc]
      rcases List.mem_cons.mp hmem with rfl | hmem'
      · rw [hu]
        exact Or.inr (List.mem_cons_self _ _)
      · rcases ih (c :: seen) hmem' hne with hs | huq
        · rcases List.mem_cons.mp hs with rfl | hs'
          · rw [hu]
            exact Or.inr (List.mem_cons_self _ _)
          · exact Or.inl hs'
        · rw [hu]
          exact Or.inr (List.mem_cons_of_mem _ huq)

theorem mem_uniqueNonEmpty_nil {a : String} {l : List String}
    (hmem : a ∈ l) (hne : a ≠ "") : a ∈ uniqueNonEmpty [] l := by
  rcases mem_uniqueNonEmpty [] l hmem hne with h | h
  · cases h
  · exact h

theorem append_ne_empty_of_data {s t : String} (ht : t.data ≠ []) : s ++ t ≠ "" := by
  intro h
  have hd : (s ++ t).data = [] := by
    rw [h]
  rw [String.data_append] at hd
  exact ht (List.append_eq_nil.mp hd).2

/-- C5: the extension-less route form `b/a` and the leading-slash form
`/b/a` return the same history as `b/a.md` on the fixture log;
`normalizeHistoryPath` is invariant under surrounding whitespace and
under a leading slash on an already-normalized path; and an
extension-less query seeds the `path.md` and `path/index.md` variants
alongside the normalized path. -/
theorem claim_C5_route_forms :
    (getHistoryForPath demoLog "b/a" = getHistoryForPath demoLog "b/a.md" ∧
     getHistoryForPath demoLog "/b/a" = getHistoryForPath demoLog "b/a.md") ∧
    (∀ p : String, normalizeHistoryPath (" " ++ p) = normalizeHistoryPath p ∧
      normalizeHistoryPath (p ++ " ") = normalizeHistoryPath p ∧
      normalizeHistoryPath ("/" ++ normalizeHistoryPath p) = normalizeHistoryPath p) ∧
    (∀ p : String, normalizeHistoryPath p ≠ "" →
      pathExt (normalizeHistoryPath p) = "" →
      normalizeHistoryPath p ∈ seedHistoryPaths p ∧
      (normalizeHistoryPath p ++ ".md") ∈ seedHistoryPaths p ∧
      joinIndexMd (normalizeHistoryPath p) ∈ seedHistoryPaths p) := by
  refine ⟨⟨by decide, by decide⟩, ?_, ?_⟩
  · intro p
    exact ⟨normalizeHistoryPath_space_left p, normalizeHistoryPath_space_right p,
      normalizeHistoryPath_slash p⟩
  · intro p hne hext
    have hseed : seedHistoryPaths p = uniqueNonEmpty []
        [normalizeHistoryPath p, normalizeHistoryPath p ++ ".md",
          joinIndexMd (normalizeHistoryPath p)] := by
      unfold seedHistoryPaths
      rw [if_neg hne, if_pos hext]
    rw [hseed]
    refine ⟨?_, ?_, ?_⟩
    · exact mem_uniqueNonEmpty_nil (by simp) hne
    · exact mem_uniqueNonEmpty_nil (by simp)
        (append_ne_empty_of_data (by decide))
    · refine mem_uniqueNonEmpty_nil (by simp) ?_
      unfold joinIndexMd
      exact append_ne_empty_of_data (by decide)

/-- Witness for C5's seeded-variants part at a concrete input: the
route form `b/a` seeds itself, `b/a.md` and `b/a/index.md`. -/
theorem claim_C5_witness :
    normalizeHistoryPath "b/a" ∈ seedHistoryPaths "b/a" ∧
    (normalizeHistoryPath "b/a" ++ ".md") ∈ seedHistoryPaths "b/a" ∧
    joinIndexMd (normalizeHistoryPath "b/a") ∈ seedHistoryPaths "b/a" :=
  claim_C5_route_forms.2.2 "b/a" (by decide) (by decide)

/-! ## Timestamp round-trip lemmas -/

theorem readDigit_digitChar : ∀ d, d < 10 → readDigit (digitChar d) = some d := by decide

theorem renderPad_length (w : Nat) : ∀ n, (renderPad w n).length = w := by
  induction w with
  | zero => intro n; rfl
  | succ w ih => intro n; simp [renderPad, ih]

theorem readFixedAux_render (w : Nat) :
    ∀ (n acc : Nat) (rest : List Char),
      readFixedAux w acc (renderPad w n ++ rest) =
        some (acc * 10 ^ w + n % 10 ^ w, rest) := by
  induction w with
  | zero =>
    intro n acc rest
    simp [renderPad, readFixedAux, Nat.mod_one]
  | succ w ih =>
    intro n acc rest
    have hd : readDigit (digitChar (n / 10 ^ w % 10)) = some (n / 10 ^ w % 10) :=
      readDigit_digitChar _ (Nat.mod_lt _ (by decide))
    simp only [renderPad, List.cons_append, readFixedAux, hd, List.append_eq]
    rw [ih (n % 10 ^ w) (acc * 10 + n / 10 ^ w % 10) rest]
    refine congrArg (fun x => some (x, rest)) ?_
    rw [Nat.mod_mod_of_dvd n dvd_rfl, pow_succ, Nat.mod_mul]
    ring

theorem readFixed_render {w n : Nat} (h : n < 10 ^ w) (rest : List Char) :
    readFixed w (renderPad w n ++ rest) = some (n, rest) := by
  unfold readFixed
  rw [readFixedAux_render w n 0 rest, Nat.zero_mul, Nat.zero_add, Nat.mod_eq_of_lt h]

theorem expectChar_cons (c : Char) (rest : List Char) :
    expectChar c (c :: rest) = some rest := by
  simp [expectChar]

theorem expectChar_ne {x c : Char} (h : x ≠ c) (rest : List Char) :
    expectChar c (x :: rest) = none := by
  simp [expectChar, h]

theorem digitsVal_foldl (ds : List Nat) : ∀ a : Nat,
    ds.foldl (fun a d => a * 10 + d) a = a * 10 ^ ds.length + digitsVal ds := by
  induction ds with
  | nil => intro a; simp [digitsVal]
  | cons d t ih =>
    intro a
    have hdv : digitsVal (d :: t) = d * 10 ^ t.length + digitsVal t := by
      have h0 : digitsVal (d :: t) = t.foldl (fun a d => a * 10 + d) (0 * 10 + d) := rfl
      rw [h0, ih (0 * 10 + d)]
      ring_nf
    rw [List.foldl_cons, ih (a * 10 + d), hdv, List.length_cons, pow_succ]
    ring

theorem takeDigits_render (w : Nat) :
    ∀ (n : Nat) (rest : List Char),
      (∀ c ∈ rest.head?, readDigit c = none) →
      ∃ ds : List Nat, takeDigits (renderPad w n ++ rest) = (ds, rest) ∧
        ds.length = w ∧ digitsVal ds = n % 10 ^ w := by
  induction w with
  | zero =>
    intro n rest hrest
    refine ⟨[], ?_, rfl, by simp [digitsVal, Nat.mod_one]⟩
    rw [show renderPad 0 n = ([] : List Char) from rfl, List.nil_append]
    cases rest with
    | nil => rfl
    | cons c t =>
      have hc : readDigit c = none := hrest c rfl
      simp only [takeDigits, hc]
  | succ w ih =>
    intro n rest hrest
    obtain ⟨ds, hds, hlen, hval⟩ := ih (n % 10 ^ w) rest hrest
    have hd : readDigit (digitChar (n / 10 ^ w % 10)) = some (n / 10 ^ w % 10) :=
      readDigit_digitChar _ (Nat.mod_lt _ (by decide))
    refine ⟨(n / 10 ^ w % 10) :: ds, ?_, by rw [List.length_cons, hlen], ?_⟩
    · simp only [renderPad, List.cons_append, takeDigits, hd, List.append_eq, hds]
    · have h0 : digitsVal ((n / 10 ^ w % 10) :: ds) =
          ds.foldl (fun a d => a * 10 + d) (0 * 10 + n / 10 ^ w % 10) := rfl
      rw [h0, digitsVal_foldl ds (0 * 10 + n / 10 ^ w % 10), hlen, hval,
        Nat.mod_mod_of_dvd n dvd_rfl, pow_succ, Nat.mod_mul]
      ring

theorem readFrac_nodot {l : List Char} (h : ∀ c ∈ l.head?, c ≠ '.') :
    readFrac l = some (0, l) := by
  cases l with
  | nil => rfl
  | cons c t =>
    have hc : c ≠ '.' := h c rfl
    simp only [readFrac, if_neg hc]

theorem readFrac_render {nanos : Nat} (hn : nanos < 1000000000) (hnz : nanos ≠ 0)
    (rest : List Char) (hrest : ∀ c ∈ rest.head?, readDigit c = none) :
    readFrac (renderFrac nanos ++ rest) = some (nanos, rest) := by
  obtain ⟨ds, hds, hlen, hval⟩ := takeDigits_render 9 nanos rest hrest
  unfold renderFrac
  rw [if_neg hnz, List.cons_append]
  simp only [readFrac]
  rw [if_pos trivial]
  simp only [hds, hlen]
  rw [if_neg (by decide : ¬ ((9 : Nat) = 0 ∨ 9 < 9)), hval,
    show (9 : Nat) - 9 = 0 from rfl, pow_zero, Nat.mul_one]
  have hlt : nanos < 10 ^ 9 := by
    have h9 : (10 : Nat) ^ 9 = 1000000000 := by norm_num
    omega
  rw [Nat.mod_eq_of_lt hlt]

theorem readOffset_render (dt : DateTime) (hoh : dt.offH ≤ 23) (hom : dt.offM ≤ 59)
    (hnorm : dt.offH = 0 ∧ dt.offM = 0 → dt.offNeg = false) (rest : List Char) :
    readOffset (renderOffset dt ++ rest) = some ((dt.offNeg, dt.offH, dt.offM), rest) := by
  have h100 : (10 : Nat) ^ 2 = 100 := by norm_num
  have hH : dt.offH < 10 ^ 2 := by omega
  have hM : dt.offM < 10 ^ 2 := by omega
  unfold renderOffset
  by_cases h0 : dt.offH = 0 ∧ dt.offM = 0
  · rw [if_pos h0, List.singleton_append]
    simp only [readOffset]
    rw [if_pos trivial, hnorm h0, h0.1, h0.2]
  · rw [if_neg h0]
    have hshape : ((if dt.offNeg then '-' else '+') ::
        (renderPad 2 dt.offH ++ [':'] ++ renderPad 2 dt.offM)) ++ rest =
        (if dt.offNeg then '-' else '+') ::
          (renderPad 2 dt.offH ++ (':' :: (renderPad 2 dt.offM ++ rest))) := by
      simp [List.append_assoc]
    rw [hshape]
    cases hng : dt.offNeg with
    | true =>
      rw [if_pos rfl]
      simp only [readOffset]
      rw [if_neg (by decide : ¬ (('-' : Char) = 'Z')),
        if_neg (by decide : ¬ (('-' : Char) = '+')), if_pos trivial]
      simp only [readFixed_render hH, readFixed_render hM, expectChar_cons,
        Option.some_bind]
      rw [if_pos (And.intro hoh hom)]
    | false =>
      rw [if_neg (by simp)]
      simp only [readOffset]
      rw [if_neg (by decide : ¬ (('+' : Char) = 'Z')), if_pos trivial]
      simp only [readFixed_render hH, readFixed_render hM, expectChar_cons,
        Option.some_bind]
      rw [if_pos (And.intro hoh hom)]

theorem daysInMonth_le (y m : Nat) : daysInMonth y m ≤ 31 := by
  unfold daysInMonth
  split
  · split <;> omega
  · split <;> omega

theorem parseCore_render (sep : Char) (dt : DateTime) (hwf : WFDateTime dt)
    (fracPart rest : List Char) (fracVal : Nat)
    (hfrac : readFrac (fracPart ++ rest) = some (fracVal, rest)) :
    parseCore sep (renderDatePart dt ++ sep :: (renderTimePart dt ++ (fracPart ++ rest))) =
      some (⟨dt.year, dt.month, dt.day, dt.hour, dt.minute, dt.second, fracVal,
        false, 0, 0⟩, rest) := by
  obtain ⟨hy, hmo1, hmo2, hd1, hd2, hh, hmi, hs, hns, hoh, hom, hnorm⟩ := hwf
  have h10000 : (10 : Nat) ^ 4 = 10000 := by norm_num
  have h100 : (10 : Nat) ^ 2 = 100 := by norm_num
  have hdim := daysInMonth_le dt.year dt.month
  have hyLT : dt.year < 10 ^ 4 := by omega
  have hmoLT : dt.month < 10 ^ 2 := by omega
  have hdLT : dt.day < 10 ^ 2 := by omega
  have hhLT : dt.hour < 10 ^ 2 := by omega
  have hmiLT : dt.minute < 10 ^ 2 := by omega
  have hsLT : dt.second < 10 ^ 2 := by omega
  have hshape : renderDatePart dt ++ sep :: (renderTimePart dt ++ (fracPart ++ rest)) =
      renderPad 4 dt.year ++ ('-' :: (renderPad 2 dt.month ++ ('-' :: (renderPad 2 dt.day ++
        (sep :: (renderPad 2 dt.hour ++ (':' :: (renderPad 2 dt.minute ++ (':' ::
          (renderPad 2 dt.second ++ (fracPart ++ rest))))))))))) := by
    simp [renderDatePart, renderTimePart, List.append_assoc]
  rw [hshape]
  unfold parseCore
  simp only [readFixed_render hyLT, readFixed_render hmoLT, readFixed_render hdLT,
    readFixed_render hhLT, readFixed_render hmiLT, readFixed_render hsLT,
    expectChar_cons, Option.some_bind, hfrac]
  rw [if_pos ⟨hmo1, hmo2, hd1, hd2, hh, hmi, hs⟩]

theorem renderOffset_head_nondigit (dt : DateTime) :
    ∀ c ∈ (renderOffset dt).head?, readDigit c = none ∧ c ≠ '.' := by
  intro c hc
  unfold renderOffset at hc
  by_cases h0 : dt.offH = 0 ∧ dt.offM = 0
  · rw [if_pos h0] at hc
    have hcz : some 'Z' = some c := hc
    injection hcz with hcz2
    rw [← hcz2]
    exact ⟨by decide, by decide⟩
  · rw [if_neg h0] at hc
    have hcs : some (if dt.offNeg then '-' else '+') = some c := hc
    injection hcs with hcs2
    rw [← hcs2]
    cases hb : dt.offNeg <;> exact ⟨by decide, by decide⟩

theorem readFrac_render_offset (dt : DateTime) (hns : dt.nanos < 1000000000) :
    readFrac (renderFrac dt.nanos ++ renderOffset dt) =
      some (dt.nanos, renderOffset dt) := by
  by_cases hz : dt.nanos = 0
  · rw [hz, show renderFrac 0 = ([] : List Char) from rfl, List.nil_append]
    exact readFrac_nodot (fun c hc => (renderOffset_head_nondigit dt c hc).2)
  · exact readFrac_render hns hz (renderOffset dt)
      (fun c hc => (renderOffset_head_nondigit dt c hc).1)

theorem parseLayoutT_render (dt : DateTime) (hwf : WFDateTime dt) :
    parseLayoutT (renderRFC3339Nano dt).data = some dt := by
  have hns : dt.nanos < 1000000000 := hwf.2.2.2.2.2.2.2.2.1
  have hoh : dt.offH ≤ 23 := hwf.2.2.2.2.2.2.2.2.2.1
  have hom : dt.offM ≤ 59 := hwf.2.2.2.2.2.2.2.2.2.2.1
  have hnorm : dt.offH = 0 ∧ dt.offM = 0 → dt.offNeg = false :=
    hwf.2.2.2.2.2.2.2.2.2.2.2
  have hfrac := readFrac_render_offset dt hns
  have hdata : (renderRFC3339Nano dt).data =
      renderDatePart dt ++ 'T' :: (renderTimePart dt ++
        (renderFrac dt.nanos ++ renderOffset dt)) := by
    simp [renderRFC3339Nano, List.append_assoc]
  unfold parseLayoutT
  rw [hdata]
  simp only [parseCore_render 'T' dt hwf (renderFrac dt.nanos) (renderOffset dt)
    dt.nanos hfrac, Option.some_bind]
  rw [show renderOffset dt = renderOffset dt ++ ([] : List Char)
    from (List.append_nil _).symm]
  simp only [readOffset_render dt hoh hom hnorm, Option.some_bind]
  rw [if_pos trivial]

theorem parseLayoutT_space (dt : DateTime) (hwf : WFDateTime dt) (tail : List Char) :
    parseLayoutT (renderDatePart dt ++ ' ' :: tail) = none := by
  obtain ⟨hy, hmo1, hmo2, hd1, hd2, hh, hmi, hs, hns, hoh, hom, hnorm⟩ := hwf
  have h10000 : (10 : Nat) ^ 4 = 10000 := by norm_num
  have h100 : (10 : Nat) ^ 2 = 100 := by norm_num
  have hdim := daysInMonth_le dt.year dt.month
  have hyLT : dt.year < 10 ^ 4 := by omega
  have hmoLT : dt.month < 10 ^ 2 := by omega
  have hdLT : dt.day < 10 ^ 2 := by omega
  have hshape : renderDatePart dt ++ ' ' :: tail =
      renderPad 4 dt.year ++ ('-' :: (renderPad 2 dt.month ++ ('-' ::
        (renderPad 2 dt.day ++ (' ' :: tail))))) := by
    simp [renderDatePart, List.append_assoc]
  unfold parseLayoutT parseCore
  rw [hshape]
  simp only [readFixed_render hyLT, readFixed_render hmoLT, readFixed_render hdLT,
    expectChar_cons, Option.some_bind,
    expectChar_ne (by decide : (' ' : Char) ≠ 'T'), Option.none_bind]

theorem parseLayoutSpaceOffset_render (dt : DateTime) (hwf : WFDateTime dt) :
    parseLayoutSpaceOffset (renderSpaceOffset dt).data =
      some { dt with nanos := 0 } := by
  have hoh : dt.offH ≤ 23 := hwf.2.2.2.2.2.2.2.2.2.1
  have hom : dt.offM ≤ 59 := hwf.2.2.2.2.2.2.2.2.2.2.1
  have hnorm : dt.offH = 0 ∧ dt.offM = 0 → dt.offNeg = false :=
    hwf.2.2.2.2.2.2.2.2.2.2.2
  have hfrac : readFrac (([] : List Char) ++ renderOffset dt) =
      some (0, renderOffset dt) := by
    rw [List.nil_append]
    exact readFrac_nodot (fun c hc => (renderOffset_head_nondigit dt c hc).2)
  have hdata : (renderSpaceOffset dt).data =
      renderDatePart dt ++ ' ' :: (renderTimePart dt ++
        (([] : List Char) ++ renderOffset dt)) := by
    simp [renderSpaceOffset, List.append_assoc]
  unfold parseLayoutSpaceOffset
  rw [hdata]
  simp only [parseCore_render ' ' dt hwf [] (renderOffset dt) 0 hfrac,
    Option.some_bind]
  rw [show renderOffset dt = renderOffset dt ++ ([] : List Char)
    from (List.append_nil _).symm]
  simp only [readOffset_render dt hoh hom hnorm, Option.some_bind]
  rw [if_pos trivial]

theorem parseLayoutSpacePlain_render (dt : DateTime) (hwf : WFDateTime dt) :
    parseLayoutSpacePlain (renderSpacePlain dt).data =
      some { dt with nanos := 0, offNeg := false, offH := 0, offM := 0 } := by
  have hfrac : readFrac (([] : List Char) ++ ([] : List Char)) =
      some (0, ([] : List Char)) := rfl
  have hdata : (renderSpacePlain dt).data =
      renderDatePart dt ++ ' ' :: (renderTimePart dt ++
        (([] : List Char) ++ ([] : List Char))) := by
    simp [renderSpacePlain, List.append_assoc]
  unfold parseLayoutSpacePlain
  rw [hdata]
  simp only [parseCore_render ' ' dt hwf [] [] 0 hfrac, Option.some_bind]
  rw [if_pos trivial]

theorem parseLayoutSpaceOffset_plain (dt : DateTime) (hwf : WFDateTime dt) :
    parseLayoutSpaceOffset (renderSpacePlain dt).data = none := by
  have hfrac : readFrac (([] : List Char) ++ ([] : List Char)) =
      some (0, ([] : List Char)) := rfl
  have hdata : (renderSpacePlain dt).data =
      renderDatePart dt ++ ' ' :: (renderTimePart dt ++
        (([] : List Char) ++ ([] : List Char))) := by
    simp [renderSpacePlain, List.append_assoc]
  unfold parseLayoutSpaceOffset
  rw [hdata]
  simp only [parseCore_render ' ' dt hwf [] [] 0 hfrac, Option.some_bind]
  rfl

theorem string_mk_ne_empty {l : List Char} (h : l.length ≠ 0) : String.mk l ≠ "" := by
  intro he
  have h2 : l = [] := congrArg String.data he
  rw [h2] at h
  exact h rfl

theorem renderDatePart_length (dt : DateTime) : (renderDatePart dt).length = 10 := by
  simp [renderDatePart, renderPad_length]

theorem renderRFC_ne_empty (dt : DateTime) : renderRFC3339Nano dt ≠ "" := by
  unfold renderRFC3339Nano
  refine string_mk_ne_empty ?_
  simp only [List.length_append, renderDatePart_length]
  omega

theorem renderSpaceOffset_ne_empty (dt : DateTime) : renderSpaceOffset dt ≠ "" := by
  unfold renderSpaceOffset
  refine string_mk_ne_empty ?_
  simp only [List.length_append, renderDatePart_length]
  omega

theorem renderSpacePlain_ne_empty (dt : DateTime) : renderSpacePlain dt ≠ "" := by
  unfold renderSpacePlain
  refine string_mk_ne_empty ?_
  simp only [List.length_append, renderDatePart_length]
  omega

/-- **C9**: `parseSQLiteTimestamp` parses a stored timestamp written in
any of the three candidate layouts and returns the corresponding time
value: the RFC 3339 form round-trips exactly, and the two space
layouts round-trip up to the components their layout does not carry
(fractional second, zone offset). -/
theorem claim_C9_timestamp_roundtrip (dt : DateTime) (hwf : WFDateTime dt) :
    parseSQLiteTimestamp (renderRFC3339Nano dt) = some dt ∧
    parseSQLiteTimestamp (renderSpaceOffset dt) = some { dt with nanos := 0 } ∧
    parseSQLiteTimestamp (renderSpacePlain dt) =
      some { dt with nanos := 0, offNeg := false, offH := 0, offM := 0 } := by
  refine ⟨?_, ?_, ?_⟩
  · unfold parseSQLiteTimestamp
    rw [if_neg (renderRFC_ne_empty dt)]
    simp only [parseLayoutT_render dt hwf]
  · unfold parseSQLiteTimestamp
    rw [if_neg (renderSpaceOffset_ne_empty dt)]
    have hT : parseLayoutT (renderSpaceOffset dt).data = none := by
      have hdata : (renderSpaceOffset dt).data =
          renderDatePart dt ++ ' ' :: (renderTimePart dt ++ renderOffset dt) := by
        simp [renderSpaceOffset, List.append_assoc]
      rw [hdata]
      exact parseLayoutT_space dt hwf _
    simp only [hT, parseLayoutSpaceOffset_render dt hwf]
  · unfold parseSQLiteTimestamp
    rw [if_neg (renderSpacePlain_ne_empty dt)]
    have hT : parseLayoutT (renderSpacePlain dt).data = none := by
      have hdata : (renderSpacePlain dt).data =
          renderDatePart dt ++ ' ' :: renderTimePart dt := by
        simp [renderSpacePlain, List.append_assoc]
      rw [hdata]
      exact parseLayoutT_space dt hwf _
    simp only [hT, parseLayoutSpaceOffset_plain dt hwf,
      parseLayoutSpacePlain_render dt hwf]

theorem claim_C9_witness :
    WFDateTime ⟨2024, 3, 5, 12, 34, 56, 123456789, false, 2, 30⟩ ∧
    (parseSQLiteTimestamp (renderRFC3339Nano
        ⟨2024, 3, 5, 12, 34, 56, 123456789, false, 2, 30⟩) =
      some ⟨2024, 3, 5, 12, 34, 56, 123456789, false, 2, 30⟩ ∧
    parseSQLiteTimestamp (renderSpaceOffset
        ⟨2024, 3, 5, 12, 34, 56, 123456789, false, 2, 30⟩) =
      some ⟨2024, 3, 5, 12, 34, 56, 0, false, 2, 30⟩ ∧
    parseSQLiteTimestamp (renderSpacePlain
        ⟨2024, 3, 5, 12, 34, 56, 123456789, false, 2, 30⟩) =
      some ⟨2024, 3, 5, 12, 34, 56, 0, false, 0, 0⟩) :=
  ⟨by decide, claim_C9_timestamp_roundtrip
    ⟨2024, 3, 5, 12, 34, 56, 123456789, false, 2, 30⟩ (by decide)⟩

end LeafWiki
